import Mathlib

/-!
# Verification of `pyadic` (`src/your_library/padic.py`)

A shallow embedding of the `PadicInteger` class: a prime base, a digit
precision, and a little-endian digit vector, with digit-wise addition,
subtraction and schoolbook multiplication.

Modelling notes, traceable to the Python source:

* `digits` is a numpy array whose dtype is chosen from the prime
  (`np.uint8` if `prime < 256`, `np.uint16` if `prime < 65536`, else
  `np.uint32`).  Indexing such an array yields a numpy scalar of that
  dtype, and numpy unsigned scalar arithmetic wraps modulo `2 ^ width`
  on overflow (it emits a RuntimeWarning, not an error).  We therefore
  model every arithmetic step of the loops with an explicit reduction
  modulo `dtypeBound prime` (`256`, `65536` or `2 ^ 32`).  Mixed
  numpy-scalar/Python-int operations in these loops keep the numpy
  dtype because the Python-int operand (`carry`, `borrow`, `prime`)
  fits in it for every prime below the dtype bound.
* `self.digits[i]` with `i` out of range raises `IndexError`; digit
  reads are therefore `Except`-valued (`Err.indexError`).  The guard in
  the source is `i < self.precision`, not `i < len(self.digits)`, and a
  list-constructed value may have fewer digits than `precision`.
* The `np.array(..., dtype=...)` conversions in `__init__` and
  `_int_to_padic` cast every entry to the selected unsigned dtype.  An
  entry below the dtype bound is stored unchanged; an entry at or above
  it is not stored unchanged under any numpy version (numpy 1.x wraps
  it modulo `2 ^ width` with a deprecation warning, numpy ≥ 2.0 raises
  `OverflowError` instead).  We model the cast as the modular wrap
  (`castDigits`), the numpy 1.x behaviour; every positive theorem about
  a constructor carries a `prime ≤ dtypeBound prime` bound — automatic
  below `2 ^ 32` — under which the cast is the identity and the two
  numpy behaviours coincide, while for primes above `2 ^ 32` an
  out-of-range digit is altered under the wrap model just as it fails
  to round-trip under either real behaviour.
* Python `%` and `//` on `int` are floor mod and floor division; for a
  positive modulus these agree with `Int.emod` and `Int.ediv`, which we
  use for the integer constructor (negative inputs included).
* Instances are immutable value records; every operator builds a fresh
  record, so "operands are left unmodified" is structural here.
-/

/-- Errors observable from the class: the explicit `ValueError` raised
on a prime mismatch (spec name `OperandMismatch`), and the `IndexError`
raised by numpy when a digit index is out of range. -/
inductive Err where
  | operandMismatch
  | indexError
  deriving DecidableEq, Repr

/-- The `PadicInteger` value: prime base, digit precision, and the
little-endian digit vector (index 0 is the least significant digit). -/
structure PadicInteger where
  prime : Nat
  precision : Nat
  digits : List Nat
  deriving DecidableEq, Repr

/-- `2 ^ width` of the dtype selected in `__init__`:
`np.uint8 if prime < 256 else (np.uint16 if prime < 65536 else np.uint32)`. -/
def dtypeBound (prime : Nat) : Nat :=
  if prime < 256 then 256 else if prime < 65536 then 65536 else 4294967296

/-- The `np.array(..., dtype=...)` entry cast: each stored entry is
reduced modulo the dtype bound (the numpy 1.x wrap; numpy ≥ 2.0 raises
`OverflowError` on an out-of-range entry instead — below the bound the
versions agree and the cast is the identity). -/
def castDigits (Wm : Nat) (l : List Nat) : List Nat :=
  l.map (fun d => d % Wm)

/-- The digit loop of `_int_to_padic`: `precision` iterations of
`digits.append(n % self.prime); n //= self.prime` (Python floor
semantics, hence `Int.emod` / `Int.ediv`). -/
def intToPadicGo (prime : Nat) : Nat → Int → List Nat
  | 0, _ => []
  | k + 1, n => (Int.emod n prime).toNat :: intToPadicGo prime k (Int.ediv n prime)

/-- Construction from a Python `int` (`PadicInteger(value, prime, precision)`
with an integer `value`): the digit loop followed by the
`np.array(digits, dtype=self.dtype)` cast. -/
def intToPadic (n : Int) (prime precision : Nat) : PadicInteger :=
  ⟨prime, precision, castDigits (dtypeBound prime) (intToPadicGo prime precision n)⟩

/-- Construction from an explicit digit list:
`np.array(value[:precision], dtype=self.dtype)` — the list is truncated
to at most `precision` entries, not padded, and cast to the dtype. -/
def listToPadic (l : List Nat) (prime precision : Nat) : PadicInteger :=
  ⟨prime, precision, castDigits (dtypeBound prime) (l.take precision)⟩

/-- Integer construction as it would behave with unbounded digit
storage (no dtype cast); a comparison point for the spec's width
refinement statement. -/
def intToPadicU (n : Int) (prime precision : Nat) : PadicInteger :=
  ⟨prime, precision, intToPadicGo prime precision n⟩

/-- List construction with unbounded digit storage (no dtype cast). -/
def listToPadicU (l : List Nat) (prime precision : Nat) : PadicInteger :=
  ⟨prime, precision, l.take precision⟩

/-- `self.digits[i] if i < self.precision else 0`: reading past
`precision` yields the literal `0`, while an index below `precision`
but past the end of the stored array raises `IndexError`. -/
def PadicInteger.digitAt (x : PadicInteger) (i : Nat) : Except Err Nat :=
  if i < x.precision then
    match x.digits.get? i with
    | some d => .ok d
    | none => .error .indexError
  else .ok 0

/-- A bare `self.digits[i]` read (no precision guard), as in `__mul__`. -/
def PadicInteger.rawDigit (x : PadicInteger) (i : Nat) : Except Err Nat :=
  match x.digits.get? i with
  | some d => .ok d
  | none => .error .indexError

/-- The carry loop of `__add__`, positions `i, i+1, ...` for `n` more
iterations with incoming carry `c`.  `digit_sum = a + b + carry` is
numpy arithmetic in the selected dtype, hence the reduction `% Wm`;
the appended digit is `digit_sum % prime` and the next carry is
`digit_sum // prime`. -/
def addGo (a b : PadicInteger) (Wm : Nat) : Nat → Nat → Nat → Except Err (List Nat)
  | _, 0, _ => .ok []
  | i, n + 1, c =>
    match a.digitAt i, b.digitAt i with
    | .ok x, .ok y =>
      (addGo a b Wm (i + 1) n ((x + y + c) % Wm / a.prime)).map
        (fun rest => (x + y + c) % Wm % a.prime :: rest)
    | .error e, _ => .error e
    | .ok _, .error e => .error e

/-- `__add__`: prime-mismatch check first, then the carry loop over
`max(self.precision, other.precision)` positions, the final carry
silently discarded, and the result rebuilt through the constructor. -/
def PadicInteger.add (a b : PadicInteger) : Except Err PadicInteger :=
  if a.prime ≠ b.prime then .error .operandMismatch
  else
    (addGo a b (dtypeBound a.prime) 0 (max a.precision b.precision) 0).map
      (fun ds => listToPadic ds a.prime (max a.precision b.precision))

/-- The borrow loop of `__sub__`.  `digit_diff = a - b - borrow + prime`
is numpy arithmetic; over the integers the chained wrapped operations
equal the mathematical value reduced by `Int.emod _ Wm` (non-negative).
The appended digit is `digit_diff % prime` and the next borrow is
`1 if digit_diff < prime else 0`. -/
def subGo (a b : PadicInteger) (Wm : Nat) : Nat → Nat → Nat → Except Err (List Nat)
  | _, 0, _ => .ok []
  | i, n + 1, c =>
    match a.digitAt i, b.digitAt i with
    | .ok x, .ok y =>
      (subGo a b Wm (i + 1) n
          (if (Int.emod ((x : Int) - y - c + a.prime) Wm).toNat < a.prime then 1 else 0)).map
        (fun rest => (Int.emod ((x : Int) - y - c + a.prime) Wm).toNat % a.prime :: rest)
    | .error e, _ => .error e
    | .ok _, .error e => .error e

/-- `__sub__`: prime-mismatch check, borrow loop over the max precision,
final borrow discarded. -/
def PadicInteger.sub (a b : PadicInteger) : Except Err PadicInteger :=
  if a.prime ≠ b.prime then .error .operandMismatch
  else
    (subGo a b (dtypeBound a.prime) 0 (max a.precision b.precision) 0).map
      (fun ds => listToPadic ds a.prime (max a.precision b.precision))

/-- The inner loop of `__mul__` for a fixed outer index `i`:
`temp = result[i+j] + self.digits[i] * other.digits[j] + carry;
result[i+j] = temp % prime; carry = temp // prime`.  Both digit reads
are re-evaluated each iteration, the product and sums are numpy
arithmetic (reduced `% Wm`), and the buffer cell is read with default 0
(its index is always in range for the buffer the caller allocates). -/
def mulInnerGo (a b : PadicInteger) (Wm i : Nat) :
    Nat → Nat → List Nat → Nat → Except Err (List Nat × Nat)
  | _, 0, buf, c => .ok (buf, c)
  | j, n + 1, buf, c =>
    match a.rawDigit i, b.rawDigit j with
    | .ok x, .ok y =>
      mulInnerGo a b Wm i (j + 1) n
        (buf.set (i + j) ((buf.getD (i + j) 0 + x * y + c) % Wm % a.prime))
        ((buf.getD (i + j) 0 + x * y + c) % Wm / a.prime)
    | .error e, _ => .error e
    | .ok _, .error e => .error e

/-- The outer loop of `__mul__`: for each `i`, run the inner loop with
carry 0 over `other.precision` positions, then write the residual carry
to `result[i + other.precision]` (plain assignment). -/
def mulOuterGo (a b : PadicInteger) (Wm : Nat) : Nat → Nat → List Nat → Except Err (List Nat)
  | _, 0, buf => .ok buf
  | i, n + 1, buf =>
    match mulInnerGo a b Wm i 0 b.precision buf 0 with
    | .ok (buf1, c) => mulOuterGo a b Wm (i + 1) n (buf1.set (i + b.precision) c)
    | .error e => .error e

/-- `__mul__`: prime-mismatch check, zero buffer of length
`self.precision + other.precision`, the two nested loops, and the
result rebuilt through the constructor with that full precision. -/
def PadicInteger.mul (a b : PadicInteger) : Except Err PadicInteger :=
  if a.prime ≠ b.prime then .error .operandMismatch
  else
    (mulOuterGo a b (dtypeBound a.prime) 0 a.precision
        (List.replicate (a.precision + b.precision) 0)).map
      (fun ds => listToPadic ds a.prime (a.precision + b.precision))

/-- Addition as it would behave with unbounded digit storage: the same
pipeline with loop modulus 0 (`n % 0 = n` imposes no reduction) and the
uncast constructor.  This is the comparison point demanded by the
spec's "no semantic effect" refinement statement. -/
def PadicInteger.addU (a b : PadicInteger) : Except Err PadicInteger :=
  if a.prime ≠ b.prime then .error .operandMismatch
  else
    (addGo a b 0 0 (max a.precision b.precision) 0).map
      (fun ds => listToPadicU ds a.prime (max a.precision b.precision))

/-- Subtraction with unbounded digit storage (`Int.emod _ 0` is the
identity). -/
def PadicInteger.subU (a b : PadicInteger) : Except Err PadicInteger :=
  if a.prime ≠ b.prime then .error .operandMismatch
  else
    (subGo a b 0 0 (max a.precision b.precision) 0).map
      (fun ds => listToPadicU ds a.prime (max a.precision b.precision))

/-- Multiplication with unbounded digit storage. -/
def PadicInteger.mulU (a b : PadicInteger) : Except Err PadicInteger :=
  if a.prime ≠ b.prime then .error .operandMismatch
  else
    (mulOuterGo a b 0 0 a.precision
        (List.replicate (a.precision + b.precision) 0)).map
      (fun ds => listToPadicU ds a.prime (a.precision + b.precision))

/-- The value represented by a little-endian digit list:
`Σ digits[i] * p ^ i`. -/
def padicValue (p : Nat) (ds : List Nat) : Nat :=
  ds.foldr (fun d r => d + p * r) 0

/-- The `n`-digit little-endian base-`p` expansion of `S` (zero-padded;
digit `i` is `S / p ^ i % p`). -/
def toDigits (p : Nat) : Nat → Nat → List Nat
  | 0, _ => []
  | n + 1, S => S % p :: toDigits p n (S / p)

/-- The specification's addition recurrence, verbatim: at each
position `sum = a_digit + b_digit + carry_in` (missing digits read as
0), the output digit is `sum mod prime`, and `carry_out = sum div
prime`. -/
def specAddDigits (p : Nat) : Nat → Nat → List Nat → List Nat → List Nat
  | _, 0, _, _ => []
  | c, n + 1, xs, ys =>
    (xs.headD 0 + ys.headD 0 + c) % p ::
      specAddDigits p ((xs.headD 0 + ys.headD 0 + c) / p) n xs.tail ys.tail

/-- The specification's subtraction recurrence, verbatim: at each
position `diff = a_digit - b_digit - borrow_in + prime`, the output
digit is `diff mod prime`, and `borrow_out = 1` if `diff < prime` else
`0`.  (In this range `diff` is non-negative, so truncated subtraction
is exact.) -/
def specSubDigits (p : Nat) : Nat → Nat → List Nat → List Nat → List Nat
  | _, 0, _, _ => []
  | c, n + 1, xs, ys =>
    (xs.headD 0 + p - (ys.headD 0 + c)) % p ::
      specSubDigits p (if xs.headD 0 + p - (ys.headD 0 + c) < p then 1 else 0) n xs.tail ys.tail

/-- Fast modular exponentiation by binary splitting of the exponent;
`fuel` only bounds the recursion depth (any `fuel ≥ e` computes
`a ^ e % m`).  Used to certify, through `lucas_primality`, a concrete
prime above `2 ^ 32` at which the dtype cast of the constructors is not
value-preserving. -/
def powModAux (m a : Nat) : Nat → Nat → Nat
  | 0, _ => 1 % m
  | fuel + 1, e =>
    if e = 0 then 1 % m
    else if e % 2 = 1 then a % m * powModAux m (a * a % m) fuel (e / 2) % m
    else powModAux m (a * a % m) fuel (e / 2)

/-- `powMod m a e = a ^ e % m`, computable by kernel reduction. -/
def powMod (m a e : Nat) : Nat := powModAux m a e e

/-! ## List helpers -/

theorem get?_eq_some_getD : ∀ (l : List Nat) (i : Nat), i < l.length →
    l.get? i = some (l.getD i 0)
  | _ :: _, 0, _ => rfl
  | _ :: xs, i + 1, h => get?_eq_some_getD xs i (Nat.lt_of_succ_lt_succ h)

theorem getD_eq_zero_of_le : ∀ (l : List Nat) (i : Nat), l.length ≤ i → l.getD i 0 = 0
  | [], _, _ => rfl
  | _ :: _, 0, h => absurd h (by simp)
  | _ :: xs, i + 1, h => getD_eq_zero_of_le xs i (Nat.le_of_succ_le_succ h)

theorem headD_drop : ∀ (l : List Nat) (i : Nat), (l.drop i).headD 0 = l.getD i 0
  | [], 0 => rfl
  | [], _ + 1 => rfl
  | _ :: _, 0 => rfl
  | _ :: xs, i + 1 => headD_drop xs i

theorem drop_eq_getD_cons : ∀ (l : List Nat) (i : Nat), i < l.length →
    l.drop i = l.getD i 0 :: l.drop (i + 1)
  | _ :: _, 0, _ => rfl
  | _ :: xs, i + 1, h => drop_eq_getD_cons xs i (Nat.lt_of_succ_lt_succ h)

theorem headD_lt {p : Nat} (hp : 0 < p) : ∀ {l : List Nat}, (∀ x ∈ l, x < p) →
    l.headD 0 < p
  | [], _ => hp
  | x :: _, h => h x (List.mem_cons_self x _)

theorem tail_bound {p : Nat} : ∀ {l : List Nat}, (∀ x ∈ l, x < p) → ∀ x ∈ l.tail, x < p
  | _, h, x, hx => h x (List.mem_of_mem_tail hx)

theorem getD_lt {p : Nat} (hp : 0 < p) {l : List Nat} (h : ∀ x ∈ l, x < p) (i : Nat) :
    l.getD i 0 < p := by
  rcases Nat.lt_or_ge i l.length with hi | hi
  · rw [← headD_drop]
    exact headD_lt hp (fun x hx => h x (List.mem_of_mem_drop hx))
  · rw [getD_eq_zero_of_le l i hi]; exact hp

/-- The dtype cast is the identity on a list of entries below the
bound. -/
theorem castDigits_id (Wm : Nat) : ∀ (l : List Nat), (∀ d ∈ l, d < Wm) →
    castDigits Wm l = l
  | [], _ => rfl
  | d :: ds, h => by
    show d % Wm :: castDigits Wm ds = d :: ds
    rw [Nat.mod_eq_of_lt (h d (List.mem_cons_self d ds)),
      castDigits_id Wm ds (fun x hx => h x (List.mem_cons_of_mem d hx))]

/-! ## Digit-list value and base expansion -/

theorem padicValue_nil (p : Nat) : padicValue p [] = 0 := rfl

theorem padicValue_cons (p d : Nat) (ds : List Nat) :
    padicValue p (d :: ds) = d + p * padicValue p ds := rfl

theorem padicValue_headD_tail (p : Nat) : ∀ (l : List Nat),
    padicValue p l = l.headD 0 + p * padicValue p l.tail
  | [] => by simp [padicValue_nil]
  | _ :: _ => rfl

theorem padicValue_replicate_zero (p : Nat) : ∀ n, padicValue p (List.replicate n 0) = 0
  | 0 => rfl
  | n + 1 => by
    simp [List.replicate_succ, padicValue_cons, padicValue_replicate_zero p n]

theorem padicValue_lt (p : Nat) : ∀ (ds : List Nat), (∀ d ∈ ds, d < p) →
    padicValue p ds < p ^ ds.length
  | [], _ => by simp [padicValue_nil]
  | d :: ds, h => by
    have hd : d < p := h d (List.mem_cons_self d ds)
    have hds := padicValue_lt p ds (fun x hx => h x (List.mem_cons_of_mem d hx))
    rw [padicValue_cons, List.length_cons, Nat.pow_succ]
    calc d + p * padicValue p ds < p + p * padicValue p ds := by omega
      _ = p * (padicValue p ds + 1) := by ring
      _ ≤ p * p ^ ds.length := Nat.mul_le_mul_left p (by omega)
      _ = p ^ ds.length * p := Nat.mul_comm _ _

theorem padicValue_set (p : Nat) : ∀ (l : List Nat) (k v : Nat), k < l.length →
    padicValue p (l.set k v) + p ^ k * l.getD k 0 = padicValue p l + p ^ k * v
  | d :: ds, 0, v, _ => by simp [padicValue_cons]; ring
  | d :: ds, k + 1, v, h => by
    have := padicValue_set p ds k v (Nat.lt_of_succ_lt_succ h)
    simp only [List.set_cons_succ, padicValue_cons, List.getD_cons_succ, Nat.pow_succ]
    calc d + p * padicValue p (ds.set k v) + p ^ k * p * ds.getD k 0
        = d + p * (padicValue p (ds.set k v) + p ^ k * ds.getD k 0) := by ring
      _ = d + p * (padicValue p ds + p ^ k * v) := by rw [this]
      _ = d + p * padicValue p ds + p ^ k * p * v := by ring

theorem toDigits_length (p : Nat) : ∀ (n S : Nat), (toDigits p n S).length = n
  | 0, _ => rfl
  | n + 1, S => by simp [toDigits, toDigits_length p n]

theorem toDigits_lt (p : Nat) (hp : 0 < p) : ∀ (n S : Nat), ∀ d ∈ toDigits p n S, d < p
  | n + 1, S, d, hd => by
    rcases List.mem_cons.mp hd with h | h
    · rw [h]; exact Nat.mod_lt S hp
    · exact toDigits_lt p hp n (S / p) d h

theorem padicValue_toDigits (p : Nat) : ∀ (n S : Nat),
    padicValue p (toDigits p n S) = S % p ^ n
  | 0, S => by simp [toDigits, padicValue_nil, Nat.mod_one]
  | n + 1, S => by
    rw [toDigits, padicValue_cons, padicValue_toDigits p n (S / p), Nat.pow_succ',
      Nat.mod_mul]

theorem toDigits_mod (p : Nat) : ∀ (n S : Nat), toDigits p n (S % p ^ n) = toDigits p n S
  | 0, _ => rfl
  | n + 1, S => by
    rw [toDigits, toDigits, Nat.mod_mod_of_dvd S (dvd_pow_self p (Nat.succ_ne_zero n)),
      Nat.pow_succ', Nat.mod_mul_right_div_self, toDigits_mod p n (S / p)]

theorem toDigits_get? (p : Nat) : ∀ (n S i : Nat), i < n →
    (toDigits p n S).get? i = some (S / p ^ i % p)
  | n + 1, S, 0, _ => by simp [toDigits]
  | n + 1, S, i + 1, h => by
    rw [toDigits, List.get?_cons_succ, toDigits_get? p n (S / p) i (Nat.lt_of_succ_lt_succ h),
      Nat.div_div_eq_div_mul, ← Nat.pow_succ']

/-! ## The addition recurrence computes the expansion of the sum -/

theorem padicValue_take_succ (p n : Nat) : ∀ (l : List Nat),
    padicValue p (l.take (n + 1)) = l.headD 0 + p * padicValue p (l.tail.take n)
  | [] => by simp [padicValue_nil]
  | _ :: _ => rfl

theorem specAddDigits_eq_toDigits (p : Nat) (hp : 0 < p) : ∀ (n c : Nat) (xs ys : List Nat),
    specAddDigits p c n xs ys =
      toDigits p n (padicValue p (xs.take n) + padicValue p (ys.take n) + c)
  | 0, _, _, _ => rfl
  | n + 1, c, xs, ys => by
    have harg : padicValue p (xs.take (n + 1)) + padicValue p (ys.take (n + 1)) + c =
        xs.headD 0 + ys.headD 0 + c +
          p * (padicValue p (xs.tail.take n) + padicValue p (ys.tail.take n)) := by
      rw [padicValue_take_succ, padicValue_take_succ]; ring
    rw [specAddDigits, toDigits, harg, Nat.add_mul_mod_self_left,
      Nat.add_mul_div_left _ _ hp,
      specAddDigits_eq_toDigits p hp n ((xs.headD 0 + ys.headD 0 + c) / p) xs.tail ys.tail]
    congr 1
    ring_nf

theorem specAddDigits_length (p : Nat) : ∀ (n c : Nat) (xs ys : List Nat),
    (specAddDigits p c n xs ys).length = n
  | 0, _, _, _ => rfl
  | n + 1, c, xs, ys => by
    simp [specAddDigits, specAddDigits_length p n]

theorem specAddDigits_lt (p : Nat) (hp : 0 < p) : ∀ (n c : Nat) (xs ys : List Nat),
    ∀ d ∈ specAddDigits p c n xs ys, d < p
  | n + 1, c, xs, ys, d, hd => by
    rcases List.mem_cons.mp hd with h | h
    · rw [h]; exact Nat.mod_lt _ hp
    · exact specAddDigits_lt p hp n _ xs.tail ys.tail d h

/-! ## The subtraction recurrence computes the difference modulo `p ^ n` -/

theorem specSubDigits_length (p : Nat) : ∀ (n c : Nat) (xs ys : List Nat),
    (specSubDigits p c n xs ys).length = n
  | 0, _, _, _ => rfl
  | n + 1, c, xs, ys => by
    simp [specSubDigits, specSubDigits_length p n]

theorem specSubDigits_lt (p : Nat) (hp : 0 < p) : ∀ (n c : Nat) (xs ys : List Nat),
    ∀ d ∈ specSubDigits p c n xs ys, d < p
  | n + 1, c, xs, ys, d, hd => by
    rcases List.mem_cons.mp hd with h | h
    · rw [h]; exact Nat.mod_lt _ hp
    · exact specSubDigits_lt p hp n _ xs.tail ys.tail d h

/-- The borrow-chain invariant: the digits produced by the subtraction
recurrence represent `X - Y - c` up to `p ^ n` times a final borrow of
0 or 1. -/
theorem specSubDigits_val (p : Nat) (hp : 0 < p) : ∀ (n c : Nat) (xs ys : List Nat),
    c ≤ 1 → (∀ x ∈ xs, x < p) → (∀ y ∈ ys, y < p) →
    ∃ bf : Int, (padicValue p (specSubDigits p c n xs ys) : Int) =
      (padicValue p (xs.take n) : Int) - padicValue p (ys.take n) - c + (p : Int) ^ n * bf
  | 0, c, xs, ys, _, _, _ => ⟨(c : Int), by simp [specSubDigits, padicValue_nil]⟩
  | n + 1, c, xs, ys, hc, hxs, hys => by
    have hx : xs.headD 0 < p := headD_lt hp hxs
    have hy : ys.headD 0 < p := headD_lt hp hys
    have hyc : ys.headD 0 + c ≤ p := by omega
    obtain ⟨bf, hval⟩ := specSubDigits_val p hp n
      (if xs.headD 0 + p - (ys.headD 0 + c) < p then 1 else 0) xs.tail ys.tail
      (by split <;> omega) (tail_bound hxs) (tail_bound hys)
    refine ⟨bf, ?_⟩
    rw [specSubDigits, padicValue_cons, Nat.cast_add, Nat.cast_mul, hval,
      padicValue_take_succ p n xs, padicValue_take_succ p n ys]
    have hdigit : (((xs.headD 0 + p - (ys.headD 0 + c)) % p : Nat) : Int) =
        (xs.headD 0 : Int) - ys.headD 0 - c +
          p * (((if xs.headD 0 + p - (ys.headD 0 + c) < p then 1 else 0 : Nat)) : Int) := by
      by_cases hlt : xs.headD 0 + p - (ys.headD 0 + c) < p
      · rw [if_pos hlt, Nat.mod_eq_of_lt hlt]
        omega
      · rw [if_neg hlt, Nat.mod_eq_sub_mod (by omega), Nat.mod_eq_of_lt (by omega)]
        omega
    rw [hdigit]
    push_cast
    ring

/-! ## Digit reads -/

theorem digitAt_eq {a : PadicInteger} (hla : a.digits.length = a.precision) (i : Nat) :
    a.digitAt i = .ok (a.digits.getD i 0) := by
  unfold PadicInteger.digitAt
  by_cases h : i < a.precision
  · rw [if_pos h, get?_eq_some_getD a.digits i (by omega)]
  · rw [if_neg h, getD_eq_zero_of_le a.digits i (by omega)]

theorem digitAt_error {a : PadicInteger} {i : Nat} {e : Err} (h : a.digitAt i = .error e) :
    e = .indexError := by
  unfold PadicInteger.digitAt at h
  by_cases hi : i < a.precision
  · rw [if_pos hi] at h
    cases hg : a.digits.get? i with
    | some d => rw [hg] at h; exact Except.noConfusion h
    | none => rw [hg] at h; injection h with h2; exact h2.symm
  · rw [if_neg hi] at h; exact Except.noConfusion h

theorem digitAt_ok_bound {p : Nat} (hp : 0 < p) {a : PadicInteger}
    (hd : ∀ d ∈ a.digits, d < p) {i x : Nat} (h : a.digitAt i = .ok x) : x < p := by
  unfold PadicInteger.digitAt at h
  by_cases hi : i < a.precision
  · rw [if_pos hi] at h
    cases hg : a.digits.get? i with
    | some d =>
      rw [hg] at h
      injection h with h2
      exact h2 ▸ hd d (List.get?_mem hg)
    | none => rw [hg] at h; exact Except.noConfusion h
  · rw [if_neg hi] at h
    injection h with h2
    omega

theorem rawDigit_eq {a : PadicInteger} {i : Nat} (hi : i < a.digits.length) :
    a.rawDigit i = .ok (a.digits.getD i 0) := by
  unfold PadicInteger.rawDigit
  rw [get?_eq_some_getD a.digits i hi]

theorem rawDigit_error {a : PadicInteger} {i : Nat} {e : Err} (h : a.rawDigit i = .error e) :
    e = .indexError := by
  unfold PadicInteger.rawDigit at h
  cases hg : a.digits.get? i with
  | some d => rw [hg] at h; exact Except.noConfusion h
  | none => rw [hg] at h; injection h with h2; exact h2.symm

theorem rawDigit_ok_bound {p : Nat} {a : PadicInteger} (hd : ∀ d ∈ a.digits, d < p)
    {i x : Nat} (h : a.rawDigit i = .ok x) : x < p := by
  unfold PadicInteger.rawDigit at h
  cases hg : a.digits.get? i with
  | some d => rw [hg] at h; injection h with h2; exact h2 ▸ hd d (List.get?_mem hg)
  | none => rw [hg] at h; exact Except.noConfusion h

/-! ## The addition loop -/

theorem addGo_bridge {a b : PadicInteger} (hla : a.digits.length = a.precision)
    (hlb : b.digits.length = b.precision) : ∀ (n i c : Nat),
    addGo a b 0 i n c =
      .ok (specAddDigits a.prime c n (a.digits.drop i) (b.digits.drop i))
  | 0, _, _ => rfl
  | n + 1, i, c => by
    simp only [addGo, digitAt_eq hla, digitAt_eq hlb, Nat.mod_zero,
      addGo_bridge hla hlb n (i + 1), Except.map, specAddDigits, headD_drop,
      List.tail_drop]

theorem addGo_elim {a b : PadicInteger} {Wm : Nat} (hp : 0 < a.prime)
    (hda : ∀ d ∈ a.digits, d < a.prime) (hdb : ∀ d ∈ b.digits, d < a.prime)
    (hW : 2 * a.prime ≤ Wm) : ∀ (n i c : Nat), c ≤ 1 →
    addGo a b Wm i n c = addGo a b 0 i n c
  | 0, _, _, _ => rfl
  | n + 1, i, c, hc => by
    rw [addGo, addGo]
    cases hxa : a.digitAt i with
    | error e => rfl
    | ok x =>
      cases hxb : b.digitAt i with
      | error e => rfl
      | ok y =>
        have hx : x < a.prime := digitAt_ok_bound hp hda hxa
        have hy : y < a.prime := digitAt_ok_bound hp hdb hxb
        have hs : x + y + c < Wm := by omega
        have hcar : (x + y + c) / a.prime ≤ 1 := by
          have := (Nat.div_lt_iff_lt_mul hp).mpr (by omega : x + y + c < 2 * a.prime)
          omega
        simp only [Nat.mod_eq_of_lt hs, Nat.mod_zero,
          addGo_elim hp hda hdb hW n (i + 1) ((x + y + c) / a.prime) hcar]

theorem addGo_total (a b : PadicInteger) (Wm : Nat) (hla : a.digits.length = a.precision)
    (hlb : b.digits.length = b.precision) : ∀ (n i c : Nat),
    ∃ ds, addGo a b Wm i n c = .ok ds
  | 0, _, _ => ⟨[], rfl⟩
  | n + 1, i, c => by
    obtain ⟨ds, hds⟩ := addGo_total a b Wm hla hlb n (i + 1)
      ((a.digits.getD i 0 + b.digits.getD i 0 + c) % Wm / a.prime)
    refine ⟨(a.digits.getD i 0 + b.digits.getD i 0 + c) % Wm % a.prime :: ds, ?_⟩
    rw [addGo, digitAt_eq hla i, digitAt_eq hlb i]
    simp only [hds, Except.map]

theorem addGo_ne_mismatch (a b : PadicInteger) (Wm : Nat) : ∀ (n i c : Nat),
    addGo a b Wm i n c ≠ .error .operandMismatch
  | 0, _, _ => fun h => Except.noConfusion h
  | n + 1, i, c => by
    rw [addGo]
    cases hxa : a.digitAt i with
    | error e =>
      have he := digitAt_error hxa
      intro h
      injection h with h2
      rw [he] at h2
      exact Err.noConfusion h2
    | ok x =>
      cases hxb : b.digitAt i with
      | error e =>
        have he := digitAt_error hxb
        intro h
        injection h with h2
        rw [he] at h2
        exact Err.noConfusion h2
      | ok y =>
        cases hrec : addGo a b Wm (i + 1) n ((x + y + c) % Wm / a.prime) with
        | ok ds =>
          simp only [hrec, Except.map]
          exact fun h => Except.noConfusion h
        | error e =>
          have hne := addGo_ne_mismatch a b Wm n (i + 1) ((x + y + c) % Wm / a.prime)
          rw [hrec] at hne
          simp only [hrec, Except.map]
          exact hne

/-- Every digit emitted by the addition loop is below the prime
(regardless of the loop modulus): each is a `% a.prime` residue. -/
theorem addGo_ok_bounds {a b : PadicInteger} (hp : 0 < a.prime) (Wm : Nat) :
    ∀ (n i c : Nat) (ds : List Nat), addGo a b Wm i n c = .ok ds →
    ∀ d ∈ ds, d < a.prime
  | 0, _, _, ds, h => by
    injection h with h2
    rw [← h2]
    intro d hd
    exact absurd hd (List.not_mem_nil d)
  | n + 1, i, c, ds, h => by
    rw [addGo] at h
    cases hxa : a.digitAt i with
    | error e =>
      rw [hxa] at h
      exact Except.noConfusion h
    | ok x =>
      cases hxb : b.digitAt i with
      | error e =>
        rw [hxa, hxb] at h
        exact Except.noConfusion h
      | ok y =>
        rw [hxa, hxb] at h
        simp only [] at h
        cases hrec : addGo a b Wm (i + 1) n ((x + y + c) % Wm / a.prime) with
        | error e =>
          rw [hrec] at h
          exact Except.noConfusion h
        | ok rest =>
          rw [hrec] at h
          injection h with h2
          rw [← h2]
          intro d hd
          rcases List.mem_cons.mp hd with hh | hh
          · rw [hh]; exact Nat.mod_lt _ hp
          · exact addGo_ok_bounds hp Wm n (i + 1) _ rest hrec d hh

/-- The addition loop is symmetric in its operands: the wrapped digit
sum `(x + y + c) % Wm` and both reductions by the (shared) prime are
symmetric, and either operand's `IndexError` is the same error. -/
theorem addGo_comm {a b : PadicInteger} (hpr : b.prime = a.prime) (Wm : Nat) :
    ∀ (n i c : Nat), addGo a b Wm i n c = addGo b a Wm i n c
  | 0, _, _ => rfl
  | n + 1, i, c => by
    rw [addGo, addGo]
    cases hxa : a.digitAt i with
    | error e1 =>
      cases hxb : b.digitAt i with
      | error e2 => rw [digitAt_error hxa, digitAt_error hxb]
      | ok y => rfl
    | ok x =>
      cases hxb : b.digitAt i with
      | error e2 => rfl
      | ok y =>
        simp only []
        rw [hpr, Nat.add_comm y x,
          addGo_comm hpr Wm n (i + 1) ((x + y + c) % Wm / a.prime)]

/-- `__add__` is commutative for same-prime operands, with no width or
digit-range condition. -/
theorem add_comm_of_prime_eq (a b : PadicInteger) (hpr : b.prime = a.prime) :
    a.add b = b.add a := by
  unfold PadicInteger.add
  rw [if_neg (fun h => h hpr.symm), if_neg (fun h => h hpr), hpr,
    Nat.max_comm b.precision a.precision,
    addGo_comm hpr (dtypeBound a.prime) (max a.precision b.precision) 0 0]

/-! ## `__add__` characterised -/

theorem add_ok (a b : PadicInteger) (hp : 0 < a.prime) (hpr : b.prime = a.prime)
    (hla : a.digits.length = a.precision) (hlb : b.digits.length = b.precision)
    (hda : ∀ d ∈ a.digits, d < a.prime) (hdb : ∀ d ∈ b.digits, d < a.prime)
    (hW : 2 * a.prime ≤ dtypeBound a.prime) :
    a.add b = .ok ⟨a.prime, max a.precision b.precision,
      specAddDigits a.prime 0 (max a.precision b.precision) a.digits b.digits⟩ := by
  unfold PadicInteger.add
  rw [if_neg (fun h => h hpr.symm)]
  rw [addGo_elim hp hda hdb hW (max a.precision b.precision) 0 0 (by omega),
    addGo_bridge hla hlb (max a.precision b.precision) 0 0]
  simp only [Except.map, List.drop_zero, listToPadic]
  rw [List.take_of_length_le (le_of_eq
      (specAddDigits_length a.prime (max a.precision b.precision) 0 a.digits b.digits)),
    castDigits_id (dtypeBound a.prime) _ (fun d hd => lt_of_lt_of_le
      (specAddDigits_lt a.prime hp (max a.precision b.precision) 0 a.digits b.digits d hd)
      (by omega))]

theorem add_ok_toDigits (a b : PadicInteger) (hp : 0 < a.prime) (hpr : b.prime = a.prime)
    (hla : a.digits.length = a.precision) (hlb : b.digits.length = b.precision)
    (hda : ∀ d ∈ a.digits, d < a.prime) (hdb : ∀ d ∈ b.digits, d < a.prime)
    (hW : 2 * a.prime ≤ dtypeBound a.prime) :
    a.add b = .ok ⟨a.prime, max a.precision b.precision,
      toDigits a.prime (max a.precision b.precision)
        (padicValue a.prime a.digits + padicValue a.prime b.digits)⟩ := by
  have hta : a.digits.length ≤ max a.precision b.precision := by
    rw [hla]; exact Nat.le_max_left _ _
  have htb : b.digits.length ≤ max a.precision b.precision := by
    rw [hlb]; exact Nat.le_max_right _ _
  rw [add_ok a b hp hpr hla hlb hda hdb hW,
    specAddDigits_eq_toDigits a.prime hp (max a.precision b.precision) 0 a.digits b.digits,
    List.take_of_length_le hta, List.take_of_length_le htb, Nat.add_zero]

/-- C1: for same-prime operands whose digit lists have length equal to
their precision and digits in `[0, prime-1]`, and whose prime satisfies
`2 * prime ≤ 2 ^ w` for the selected digit width, `__add__` produces the
digit-wise carry recurrence (`specAddDigits`, missing digits read as 0)
at precision `max(a.precision, b.precision)` with the final carry
discarded, and the result represents `(a + b) mod prime ^ max`. -/
theorem add_digitwise_correct (a b : PadicInteger) (hp : 2 ≤ a.prime)
    (hpr : b.prime = a.prime) (hla : a.digits.length = a.precision)
    (hlb : b.digits.length = b.precision) (hda : ∀ d ∈ a.digits, d < a.prime)
    (hdb : ∀ d ∈ b.digits, d < a.prime) (hW : 2 * a.prime ≤ dtypeBound a.prime) :
    a.add b = .ok ⟨a.prime, max a.precision b.precision,
      specAddDigits a.prime 0 (max a.precision b.precision) a.digits b.digits⟩ ∧
    padicValue a.prime
        (specAddDigits a.prime 0 (max a.precision b.precision) a.digits b.digits) =
      (padicValue a.prime a.digits + padicValue a.prime b.digits) %
        a.prime ^ max a.precision b.precision := by
  have hp0 : 0 < a.prime := by omega
  refine ⟨add_ok a b hp0 hpr hla hlb hda hdb hW, ?_⟩
  rw [specAddDigits_eq_toDigits a.prime hp0 (max a.precision b.precision) 0
      a.digits b.digits,
    List.take_of_length_le (by rw [hla]; exact Nat.le_max_left _ _),
    List.take_of_length_le (by rw [hlb]; exact Nat.le_max_right _ _),
    padicValue_toDigits, Nat.add_zero]

/-- Witness for C1 at the spec's concrete scenario (prime 5,
precision 10, 123 + 456). -/
theorem add_digitwise_correct_witness :
    PadicInteger.add ⟨5, 10, [3, 4, 4, 0, 0, 0, 0, 0, 0, 0]⟩
        ⟨5, 10, [1, 1, 3, 3, 0, 0, 0, 0, 0, 0]⟩ =
      .ok ⟨5, max 10 10,
        specAddDigits 5 0 (max 10 10) [3, 4, 4, 0, 0, 0, 0, 0, 0, 0]
          [1, 1, 3, 3, 0, 0, 0, 0, 0, 0]⟩ ∧
    padicValue 5 (specAddDigits 5 0 (max 10 10) [3, 4, 4, 0, 0, 0, 0, 0, 0, 0]
        [1, 1, 3, 3, 0, 0, 0, 0, 0, 0]) =
      (padicValue 5 [3, 4, 4, 0, 0, 0, 0, 0, 0, 0] +
          padicValue 5 [1, 1, 3, 3, 0, 0, 0, 0, 0, 0]) % 5 ^ max 10 10 :=
  add_digitwise_correct ⟨5, 10, [3, 4, 4, 0, 0, 0, 0, 0, 0, 0]⟩
    ⟨5, 10, [1, 1, 3, 3, 0, 0, 0, 0, 0, 0]⟩ (by decide) (by decide) (by decide)
    (by decide) (by decide) (by decide) (by decide)

/-- C1 counterexample: with prime 131 (8-bit storage, `2 * 131 > 256`)
and single digits 130 + 130, the stored-width wraparound makes the code
produce digit 4, while the claimed recurrence `(130 + 130 + 0) mod 131`
gives 129; the result does not represent `(a + b) mod 131` either. -/
theorem add_digitwise_counterexample :
    PadicInteger.add ⟨131, 1, [130]⟩ ⟨131, 1, [130]⟩ = .ok ⟨131, 1, [4]⟩ ∧
    (130 + 130 + 0) % 131 = 129 ∧ (4 : Nat) ≠ 129 ∧
    padicValue 131 [4] ≠
      (padicValue 131 [130] + padicValue 131 [130]) % 131 ^ 1 :=
  ⟨rfl, rfl, by decide, by decide⟩

/-- C9 (amended): for same-prime, equal-precision, full-length,
in-range operands, `__add__` is commutative unconditionally (the
wrapped digit sum is symmetric), and it is associative (modulo the
truncation at `prime ^ precision`) provided `2 * prime ≤ 2 ^ w` for the
selected digit dtype; associativity is stated through `Except.bind` to
chain the fallible operations, and fails in general under the wrap. -/
theorem add_comm_assoc_bounded (p k : Nat) (da db dc : List Nat) (hp : 2 ≤ p)
    (hla : da.length = k) (hlb : db.length = k) (hlc : dc.length = k)
    (hda : ∀ d ∈ da, d < p) (hdb : ∀ d ∈ db, d < p) (hdc : ∀ d ∈ dc, d < p) :
    PadicInteger.add ⟨p, k, da⟩ ⟨p, k, db⟩ = PadicInteger.add ⟨p, k, db⟩ ⟨p, k, da⟩ ∧
    (2 * p ≤ dtypeBound p →
      (PadicInteger.add ⟨p, k, da⟩ ⟨p, k, db⟩).bind (fun r => r.add ⟨p, k, dc⟩) =
        (PadicInteger.add ⟨p, k, db⟩ ⟨p, k, dc⟩).bind
          (fun r => PadicInteger.add ⟨p, k, da⟩ r)) := by
  have hp0 : 0 < p := by omega
  constructor
  · exact add_comm_of_prime_eq ⟨p, k, da⟩ ⟨p, k, db⟩ rfl
  · intro hW
    have h1 := add_ok_toDigits ⟨p, k, da⟩ ⟨p, k, db⟩ hp0 rfl hla hlb hda hdb hW
    have h3 := add_ok_toDigits ⟨p, k, db⟩ ⟨p, k, dc⟩ hp0 rfl hlb hlc hdb hdc hW
    simp only [Nat.max_self] at h1 h3
    have h4 := add_ok_toDigits
      ⟨p, k, toDigits p k (padicValue p da + padicValue p db)⟩ ⟨p, k, dc⟩ hp0 rfl
      (toDigits_length p k _) hlc (toDigits_lt p hp0 k _) hdc hW
    have h5 := add_ok_toDigits ⟨p, k, da⟩
      ⟨p, k, toDigits p k (padicValue p db + padicValue p dc)⟩ hp0 rfl
      hla (toDigits_length p k _) hda (toDigits_lt p hp0 k _) hW
    simp only [Nat.max_self, padicValue_toDigits] at h4 h5
    rw [h1, h3]
    simp only [Except.bind]
    rw [h4, h5]
    rw [← toDigits_mod p k ((padicValue p da + padicValue p db) % p ^ k + padicValue p dc),
      Nat.mod_add_mod,
      ← toDigits_mod p k
        (padicValue p da + (padicValue p db + padicValue p dc) % p ^ k),
      Nat.add_mod_mod, Nat.add_assoc]

/-- Witness for C9 at prime 7, precision 1, digits 1, 2, 3. -/
theorem add_comm_assoc_bounded_witness :
    PadicInteger.add ⟨7, 1, [1]⟩ ⟨7, 1, [2]⟩ = PadicInteger.add ⟨7, 1, [2]⟩ ⟨7, 1, [1]⟩ ∧
    (2 * 7 ≤ dtypeBound 7 →
      (PadicInteger.add ⟨7, 1, [1]⟩ ⟨7, 1, [2]⟩).bind (fun r => r.add ⟨7, 1, [3]⟩) =
        (PadicInteger.add ⟨7, 1, [2]⟩ ⟨7, 1, [3]⟩).bind
          (fun r => PadicInteger.add ⟨7, 1, [1]⟩ r)) :=
  add_comm_assoc_bounded 7 1 [1] [2] [3] (by decide) (by decide) (by decide)
    (by decide) (by decide) (by decide) (by decide)

/-- C9 counterexample: with prime 131 (8-bit storage) and precision 1,
digits 130, 126, 126 are all in range, but the two association orders
give digit 126 versus digit 120 — the wrapped carry arithmetic is not
associative. -/
theorem add_assoc_counterexample :
    (PadicInteger.add ⟨131, 1, [130]⟩ ⟨131, 1, [126]⟩).bind
        (fun r => r.add ⟨131, 1, [126]⟩) = .ok ⟨131, 1, [126]⟩ ∧
    (PadicInteger.add ⟨131, 1, [126]⟩ ⟨131, 1, [126]⟩).bind
        (fun r => PadicInteger.add ⟨131, 1, [130]⟩ r) = .ok ⟨131, 1, [120]⟩ ∧
    (⟨131, 1, [126]⟩ : PadicInteger) ≠ ⟨131, 1, [120]⟩ :=
  ⟨rfl, rfl, by decide⟩

/-! ## The subtraction loop -/

theorem intEmod_eq (a b : Int) : Int.emod a b = a % b := rfl

theorem intEdiv_eq (a b : Int) : Int.ediv a b = a / b := rfl

theorem iteBorrow_le_one (c : Prop) [Decidable c] : (if c then 1 else 0) ≤ 1 := by
  split <;> omega

theorem sub_digit_toNat (x y c p : Nat) :
    ((x : Int) - y - c + p).toNat = x + p - (y + c) := by omega

theorem subGo_bridge {a b : PadicInteger} (hla : a.digits.length = a.precision)
    (hlb : b.digits.length = b.precision) : ∀ (n i c : Nat),
    subGo a b 0 i n c =
      .ok (specSubDigits a.prime c n (a.digits.drop i) (b.digits.drop i))
  | 0, _, _ => rfl
  | n + 1, i, c => by
    simp only [subGo, digitAt_eq hla, digitAt_eq hlb, intEmod_eq, Nat.cast_zero,
      Int.emod_zero, sub_digit_toNat, subGo_bridge hla hlb n (i + 1), Except.map,
      specSubDigits, headD_drop, List.tail_drop]

theorem subGo_elim {a b : PadicInteger} {Wm : Nat} (hp : 0 < a.prime)
    (hda : ∀ d ∈ a.digits, d < a.prime) (hdb : ∀ d ∈ b.digits, d < a.prime)
    (hW : 2 * a.prime ≤ Wm) : ∀ (n i c : Nat), c ≤ 1 →
    subGo a b Wm i n c = subGo a b 0 i n c
  | 0, _, _, _ => rfl
  | n + 1, i, c, hc => by
    rw [subGo, subGo]
    cases hxa : a.digitAt i with
    | error e => rfl
    | ok x =>
      cases hxb : b.digitAt i with
      | error e => rfl
      | ok y =>
        have hx : x < a.prime := digitAt_ok_bound hp hda hxa
        have hy : y < a.prime := digitAt_ok_bound hp hdb hxb
        have ht0 : (0 : Int) ≤ (x : Int) - y - c + a.prime := by omega
        have htW : (x : Int) - y - c + a.prime < (Wm : Int) := by omega
        have hIH := subGo_elim hp hda hdb hW n (i + 1)
          (if ((x : Int) - y - c + a.prime).toNat < a.prime then 1 else 0)
          (iteBorrow_le_one _)
        simp only [intEmod_eq, Nat.cast_zero, Int.emod_zero,
          Int.emod_eq_of_lt ht0 htW, hIH]

theorem subGo_total (a b : PadicInteger) (Wm : Nat) (hla : a.digits.length = a.precision)
    (hlb : b.digits.length = b.precision) : ∀ (n i c : Nat),
    ∃ ds, subGo a b Wm i n c = .ok ds
  | 0, _, _ => ⟨[], rfl⟩
  | n + 1, i, c => by
    obtain ⟨ds, hds⟩ := subGo_total a b Wm hla hlb n (i + 1)
      (if (Int.emod ((a.digits.getD i 0 : Int) - b.digits.getD i 0 - c + a.prime)
          Wm).toNat < a.prime then 1 else 0)
    refine ⟨(Int.emod ((a.digits.getD i 0 : Int) - b.digits.getD i 0 - c + a.prime)
        Wm).toNat % a.prime :: ds, ?_⟩
    rw [subGo, digitAt_eq hla i, digitAt_eq hlb i]
    simp only [hds, Except.map]

theorem subGo_ne_mismatch (a b : PadicInteger) (Wm : Nat) : ∀ (n i c : Nat),
    subGo a b Wm i n c ≠ .error .operandMismatch
  | 0, _, _ => fun h => Except.noConfusion h
  | n + 1, i, c => by
    rw [subGo]
    cases hxa : a.digitAt i with
    | error e =>
      have he := digitAt_error hxa
      intro h
      injection h with h2
      rw [he] at h2
      exact Err.noConfusion h2
    | ok x =>
      cases hxb : b.digitAt i with
      | error e =>
        have he := digitAt_error hxb
        intro h
        injection h with h2
        rw [he] at h2
        exact Err.noConfusion h2
      | ok y =>
        cases hrec : subGo a b Wm (i + 1) n
            (if (Int.emod ((x : Int) - y - c + a.prime) Wm).toNat < a.prime
              then 1 else 0) with
        | ok ds =>
          simp only [hrec, Except.map]
          exact fun h => Except.noConfusion h
        | error e =>
          have hne := subGo_ne_mismatch a b Wm n (i + 1)
            (if (Int.emod ((x : Int) - y - c + a.prime) Wm).toNat < a.prime
              then 1 else 0)
          rw [hrec] at hne
          simp only [hrec, Except.map]
          exact hne

/-- Every digit emitted by the subtraction loop is below the prime
(regardless of the loop modulus): each is a `% a.prime` residue. -/
theorem subGo_ok_bounds {a b : PadicInteger} (hp : 0 < a.prime) (Wm : Nat) :
    ∀ (n i c : Nat) (ds : List Nat), subGo a b Wm i n c = .ok ds →
    ∀ d ∈ ds, d < a.prime
  | 0, _, _, ds, h => by
    injection h with h2
    rw [← h2]
    intro d hd
    exact absurd hd (List.not_mem_nil d)
  | n + 1, i, c, ds, h => by
    rw [subGo] at h
    cases hxa : a.digitAt i with
    | error e =>
      rw [hxa] at h
      exact Except.noConfusion h
    | ok x =>
      cases hxb : b.digitAt i with
      | error e =>
        rw [hxa, hxb] at h
        exact Except.noConfusion h
      | ok y =>
        rw [hxa, hxb] at h
        simp only [] at h
        cases hrec : subGo a b Wm (i + 1) n
            (if (Int.emod ((x : Int) - y - c + a.prime) Wm).toNat < a.prime
              then 1 else 0) with
        | error e =>
          rw [hrec] at h
          exact Except.noConfusion h
        | ok rest =>
          rw [hrec] at h
          injection h with h2
          rw [← h2]
          intro d hd
          rcases List.mem_cons.mp hd with hh | hh
          · rw [hh]; exact Nat.mod_lt _ hp
          · exact subGo_ok_bounds hp Wm n (i + 1) _ rest hrec d hh

/-! ## `__sub__` characterised -/

theorem sub_ok (a b : PadicInteger) (hp : 0 < a.prime) (hpr : b.prime = a.prime)
    (hla : a.digits.length = a.precision) (hlb : b.digits.length = b.precision)
    (hda : ∀ d ∈ a.digits, d < a.prime) (hdb : ∀ d ∈ b.digits, d < a.prime)
    (hW : 2 * a.prime ≤ dtypeBound a.prime) :
    a.sub b = .ok ⟨a.prime, max a.precision b.precision,
      specSubDigits a.prime 0 (max a.precision b.precision) a.digits b.digits⟩ := by
  unfold PadicInteger.sub
  rw [if_neg (fun h => h hpr.symm)]
  rw [subGo_elim hp hda hdb hW (max a.precision b.precision) 0 0 (by omega),
    subGo_bridge hla hlb (max a.precision b.precision) 0 0]
  simp only [Except.map, List.drop_zero, listToPadic]
  rw [List.take_of_length_le (le_of_eq
      (specSubDigits_length a.prime (max a.precision b.precision) 0 a.digits b.digits)),
    castDigits_id (dtypeBound a.prime) _ (fun d hd => lt_of_lt_of_le
      (specSubDigits_lt a.prime hp (max a.precision b.precision) 0 a.digits b.digits d hd)
      (by omega))]

/-- C2: for same-prime operands with full-length, in-range digit lists
and `2 * prime` within the selected digit width, `__sub__` produces the
add-prime-then-borrow recurrence (`specSubDigits`: digit
`(a - b - borrow + prime) mod prime`, borrow 1 exactly when the shifted
difference is below `prime`), the final borrow discarded, and the
result represents `(a - b) mod prime ^ max(a.precision, b.precision)`
(exact difference when non-negative, p-adic complement when
negative). -/
theorem sub_digitwise_correct (a b : PadicInteger) (hp : 2 ≤ a.prime)
    (hpr : b.prime = a.prime) (hla : a.digits.length = a.precision)
    (hlb : b.digits.length = b.precision) (hda : ∀ d ∈ a.digits, d < a.prime)
    (hdb : ∀ d ∈ b.digits, d < a.prime) (hW : 2 * a.prime ≤ dtypeBound a.prime) :
    a.sub b = .ok ⟨a.prime, max a.precision b.precision,
      specSubDigits a.prime 0 (max a.precision b.precision) a.digits b.digits⟩ ∧
    (padicValue a.prime (specSubDigits a.prime 0 (max a.precision b.precision)
        a.digits b.digits) : Int) =
      ((padicValue a.prime a.digits : Int) - padicValue a.prime b.digits) %
        (a.prime : Int) ^ max a.precision b.precision := by
  have hp0 : 0 < a.prime := by omega
  refine ⟨sub_ok a b hp0 hpr hla hlb hda hdb hW, ?_⟩
  obtain ⟨bf, hval⟩ := specSubDigits_val a.prime hp0 (max a.precision b.precision) 0
    a.digits b.digits (by omega) hda hdb
  rw [List.take_of_length_le (by rw [hla]; exact Nat.le_max_left _ _),
    List.take_of_length_le (by rw [hlb]; exact Nat.le_max_right _ _)] at hval
  simp only [Nat.cast_zero, sub_zero] at hval
  have hVlt : padicValue a.prime (specSubDigits a.prime 0
      (max a.precision b.precision) a.digits b.digits) <
      a.prime ^ max a.precision b.precision := by
    have h1 := padicValue_lt a.prime
      (specSubDigits a.prime 0 (max a.precision b.precision) a.digits b.digits)
      (specSubDigits_lt a.prime hp0 (max a.precision b.precision) 0 a.digits b.digits)
    rwa [specSubDigits_length] at h1
  have hsplit : (padicValue a.prime a.digits : Int) - padicValue a.prime b.digits =
      (padicValue a.prime (specSubDigits a.prime 0 (max a.precision b.precision)
          a.digits b.digits) : Int) +
        (a.prime : Int) ^ max a.precision b.precision * (-bf) := by
    linear_combination -hval
  rw [hsplit, Int.add_mul_emod_self_left]
  exact (Int.emod_eq_of_lt (Int.ofNat_nonneg _) (by exact_mod_cast hVlt)).symm

/-- Witness for C2 at the spec's concrete scenario (456 − 123 in base 5,
precision 10). -/
theorem sub_digitwise_correct_witness :
    PadicInteger.sub ⟨5, 10, [1, 1, 3, 3, 0, 0, 0, 0, 0, 0]⟩
        ⟨5, 10, [3, 4, 4, 0, 0, 0, 0, 0, 0, 0]⟩ =
      .ok ⟨5, max 10 10,
        specSubDigits 5 0 (max 10 10) [1, 1, 3, 3, 0, 0, 0, 0, 0, 0]
          [3, 4, 4, 0, 0, 0, 0, 0, 0, 0]⟩ ∧
    (padicValue 5 (specSubDigits 5 0 (max 10 10) [1, 1, 3, 3, 0, 0, 0, 0, 0, 0]
        [3, 4, 4, 0, 0, 0, 0, 0, 0, 0]) : Int) =
      ((padicValue 5 [1, 1, 3, 3, 0, 0, 0, 0, 0, 0] : Int) -
          padicValue 5 [3, 4, 4, 0, 0, 0, 0, 0, 0, 0]) % (5 : Int) ^ max 10 10 :=
  sub_digitwise_correct ⟨5, 10, [1, 1, 3, 3, 0, 0, 0, 0, 0, 0]⟩
    ⟨5, 10, [3, 4, 4, 0, 0, 0, 0, 0, 0, 0]⟩ (by decide) (by decide) (by decide)
    (by decide) (by decide) (by decide) (by decide)

/-- C2 counterexample: with prime 131 (8-bit storage) and single digits
130 − 0, the wrapped `digit_diff` is `261 mod 256 = 5`, so the code
emits digit 5 (and sets the borrow), while the claimed recurrence gives
`261 mod 131 = 130`; the result does not represent `(a - b) mod 131`. -/
theorem sub_digitwise_counterexample :
    PadicInteger.sub ⟨131, 1, [130]⟩ ⟨131, 1, [0]⟩ = .ok ⟨131, 1, [5]⟩ ∧
    (130 - 0 - 0 + 131) % 131 = 130 ∧ (5 : Nat) ≠ 130 ∧
    (padicValue 131 [5] : Int) ≠
      ((padicValue 131 [130] : Int) - padicValue 131 [0]) % (131 : Int) ^ 1 :=
  ⟨rfl, rfl, by decide, by decide⟩

/-! ## Schoolbook multiplication, structural proof vehicle -/

theorem drop_tail_eq : ∀ (l : List Nat) (n : Nat), l.tail.drop n = l.drop (n + 1)
  | [], _ => by simp
  | _ :: _, _ => rfl

theorem take_set_succ : ∀ (l : List Nat) (k v : Nat), k < l.length →
    (l.set k v).take (k + 1) = l.take k ++ [v]
  | _ :: _, 0, _, _ => by simp
  | x :: xs, k + 1, v, h => by
    simp only [List.set_cons_succ, List.take_succ_cons, List.cons_append]
    rw [take_set_succ xs k v (Nat.lt_of_succ_lt_succ h)]

theorem take_one_headD : ∀ (l : List Nat), l ≠ [] → l.take 1 = [l.headD 0]
  | [], h => absurd rfl h
  | _ :: _, _ => rfl

theorem headD_zero_of_all_zero : ∀ {l : List Nat}, (∀ e ∈ l, e = 0) → l.headD 0 = 0
  | [], _ => rfl
  | x :: _, h => h x (List.mem_cons_self x _)

/-- One row of the schoolbook convolution (exact arithmetic): the digit
`ai` times the digit list `bds`, accumulated into the leading cells of
`seg` with incoming carry `c`; returns the updated segment and the
row's final carry. -/
def rowGo (p ai : Nat) : List Nat → List Nat → Nat → List Nat × Nat
  | [], seg, c => (seg, c)
  | bj :: bs, seg, c =>
    let t := seg.headD 0 + ai * bj + c
    let r := rowGo p ai bs seg.tail (t / p)
    (t % p :: r.1, r.2)

/-- The outer schoolbook accumulation (exact arithmetic): one row per
digit of `ads`, each row's final carry written (plain assignment) at
relative position `m`, after which the settled lowest cell is emitted
and the loop advances one cell. -/
def mulAcc (p m : Nat) (bds : List Nat) : List Nat → List Nat → List Nat
  | [], buf => buf
  | ai :: arest, buf =>
    let r := rowGo p ai bds buf 0
    let b2 := r.1.set m r.2
    b2.headD 0 :: mulAcc p m bds arest b2.tail

theorem rowGo_length (p ai : Nat) : ∀ (bds seg : List Nat) (c : Nat),
    bds.length ≤ seg.length → (rowGo p ai bds seg c).1.length = seg.length
  | [], _, _, _ => rfl
  | bj :: bs, seg, c, h => by
    simp only [List.length_cons] at h
    simp only [rowGo, List.length_cons]
    rw [rowGo_length p ai bs seg.tail ((seg.headD 0 + ai * bj + c) / p)
        (by rw [List.length_tail]; omega),
      List.length_tail]
    omega

theorem rowGo_drop (p ai : Nat) : ∀ (bds seg : List Nat) (c : Nat),
    (rowGo p ai bds seg c).1.drop bds.length = seg.drop bds.length
  | [], _, _ => rfl
  | bj :: bs, seg, c => by
    simp only [rowGo, List.length_cons, List.drop_succ_cons]
    rw [rowGo_drop p ai bs seg.tail ((seg.headD 0 + ai * bj + c) / p), drop_tail_eq]

theorem rowGo_value (p : Nat) (ai : Nat) : ∀ (bds seg : List Nat) (c : Nat),
    padicValue p (rowGo p ai bds seg c).1 + p ^ bds.length * (rowGo p ai bds seg c).2 =
      padicValue p seg + ai * padicValue p bds + c
  | [], seg, c => by simp [rowGo, padicValue_nil]
  | bj :: bs, seg, c => by
    simp only [rowGo, padicValue_cons, List.length_cons]
    have hIH := rowGo_value p ai bs seg.tail ((seg.headD 0 + ai * bj + c) / p)
    have hmd := Nat.mod_add_div (seg.headD 0 + ai * bj + c) p
    have hseg := padicValue_headD_tail p seg
    zify at hIH hmd hseg ⊢
    linear_combination (p : Int) * hIH + hmd - hseg

theorem mulAcc_length (p m : Nat) (bds : List Nat) : ∀ (ads buf : List Nat),
    bds.length + ads.length ≤ buf.length → (mulAcc p m bds ads buf).length = buf.length
  | [], _, _ => rfl
  | ai :: arest, buf, hlen => by
    simp only [List.length_cons] at hlen
    simp only [mulAcc, List.length_cons]
    have hr := rowGo_length p ai bds buf 0 (by omega)
    rw [mulAcc_length p m bds arest ((rowGo p ai bds buf 0).1.set m
        (rowGo p ai bds buf 0).2).tail
      (by rw [List.length_tail, List.length_set, hr]; omega)]
    rw [List.length_tail, List.length_set, hr]
    omega

theorem mulAcc_value (p : Nat) (hp : 0 < p) (m : Nat) (bds : List Nat)
    (hm : bds.length = m) : ∀ (ads buf : List Nat),
    m + ads.length ≤ buf.length → (∀ e ∈ buf.drop m, e = 0) →
    padicValue p (mulAcc p m bds ads buf) =
      padicValue p buf + padicValue p ads * padicValue p bds
  | [], buf, _, _ => by simp [mulAcc, padicValue_nil]
  | ai :: arest, buf, hlen, hzero => by
    simp only [List.length_cons] at hlen
    simp only [mulAcc, padicValue_cons]
    set r := rowGo p ai bds buf 0 with hr
    have hval := rowGo_value p ai bds buf 0
    rw [← hr, hm] at hval
    have hrlen : r.1.length = buf.length := by
      rw [hr]; exact rowGo_length p ai bds buf 0 (by omega)
    have hdrop : r.1.drop m = buf.drop m := by
      rw [hr, ← hm]; exact rowGo_drop p ai bds buf 0
    have hm_lt : m < r.1.length := by omega
    have hold : r.1.getD m 0 = 0 := by
      rw [← headD_drop, hdrop]
      exact headD_zero_of_all_zero hzero
    have hset := padicValue_set p r.1 m r.2 hm_lt
    rw [hold, Nat.mul_zero, Nat.add_zero] at hset
    have hVb2 : padicValue p (r.1.set m r.2) =
        padicValue p buf + ai * padicValue p bds := by
      rw [hset, hval, Nat.add_zero]
    have hb2 := padicValue_headD_tail p (r.1.set m r.2)
    have hIH := mulAcc_value p hp m bds hm arest (r.1.set m r.2).tail
      (by rw [List.length_tail, List.length_set, hrlen]; omega)
      (by
        intro e he
        rw [drop_tail_eq, List.drop_set_of_lt r.2 r.1 (Nat.lt_succ_self m),
          ← List.tail_drop, hdrop, List.tail_drop] at he
        exact hzero e (List.mem_of_mem_drop
          ((List.drop_drop 1 m buf).symm ▸ he)))
    rw [hIH]
    zify at hb2 hVb2 ⊢
    linear_combination hVb2 - hb2

theorem mulStep_lt {p Wm r xv yv c : Nat} (hp : 0 < p) (hr : r < p) (hx : xv < p)
    (hy : yv < p) (hc : c < p) (hW : p * p ≤ Wm) : r + xv * yv + c < Wm := by
  nlinarith

theorem rowGo_bounds (p : Nat) (hp : 0 < p) (ai : Nat) (hai : ai < p) :
    ∀ (bds seg : List Nat) (c : Nat), (∀ d ∈ bds, d < p) →
    (∀ e ∈ seg, e < p) → c < p →
    (∀ e ∈ (rowGo p ai bds seg c).1, e < p) ∧ (rowGo p ai bds seg c).2 < p
  | [], seg, c, _, hseg, hc => ⟨hseg, hc⟩
  | bj :: bs, seg, c, hbds, hseg, hc => by
    simp only [rowGo]
    have hbj : bj < p := hbds bj (List.mem_cons_self bj bs)
    have ht : seg.headD 0 + ai * bj + c < p * p :=
      mulStep_lt hp (headD_lt hp hseg) hai hbj hc (Nat.le_refl _)
    have hcar : (seg.headD 0 + ai * bj + c) / p < p := by
      rw [Nat.div_lt_iff_lt_mul hp]
      omega
    obtain ⟨h1, h2⟩ := rowGo_bounds p hp ai hai bs seg.tail
      ((seg.headD 0 + ai * bj + c) / p)
      (fun d hd => hbds d (List.mem_cons_of_mem bj hd)) (tail_bound hseg) hcar
    refine ⟨?_, h2⟩
    intro e he
    rcases List.mem_cons.mp he with h | h
    · rw [h]; exact Nat.mod_lt _ hp
    · exact h1 e h

theorem mulAcc_bounds (p : Nat) (hp : 0 < p) (m : Nat) (bds : List Nat)
    (hbds : ∀ d ∈ bds, d < p) : ∀ (ads buf : List Nat), (∀ d ∈ ads, d < p) →
    (∀ e ∈ buf, e < p) → ∀ e ∈ mulAcc p m bds ads buf, e < p
  | [], _, _, hbuf => hbuf
  | ai :: arest, buf, hads, hbuf => by
    simp only [mulAcc]
    have hai : ai < p := hads ai (List.mem_cons_self ai arest)
    obtain ⟨h1, h2⟩ := rowGo_bounds p hp ai hai bds buf 0 hbds hbuf hp
    have hb2 : ∀ x ∈ (rowGo p ai bds buf 0).1.set m (rowGo p ai bds buf 0).2, x < p := by
      intro x hx
      rcases List.mem_or_eq_of_mem_set hx with h | h
      · exact h1 x h
      · rw [h]; exact h2
    intro e he
    rcases List.mem_cons.mp he with h | h
    · rw [h]; exact headD_lt hp hb2
    · exact mulAcc_bounds p hp m bds hbds arest _ (tail_bound hads) (tail_bound hb2) e h

/-! ## The multiplication loops -/

theorem mulInnerGo_elim {a b : PadicInteger} {Wm : Nat} (hp : 0 < a.prime)
    (hda : ∀ d ∈ a.digits, d < a.prime) (hdb : ∀ d ∈ b.digits, d < a.prime)
    (hW : a.prime * a.prime ≤ Wm) (i : Nat) : ∀ (n j : Nat) (buf : List Nat) (c : Nat),
    (∀ e ∈ buf, e < a.prime) → c < a.prime →
    mulInnerGo a b Wm i j n buf c = mulInnerGo a b 0 i j n buf c ∧
    (∀ r, mulInnerGo a b 0 i j n buf c = .ok r →
      (∀ e ∈ r.1, e < a.prime) ∧ r.2 < a.prime)
  | 0, j, buf, c, hbuf, hc =>
    ⟨rfl, by
      intro r hr2
      injection hr2 with hr3
      rw [← hr3]
      exact ⟨hbuf, hc⟩⟩
  | n + 1, j, buf, c, hbuf, hc => by
    rw [mulInnerGo, mulInnerGo]
    cases hxa : a.rawDigit i with
    | error e => exact ⟨rfl, fun r hr2 => Except.noConfusion hr2⟩
    | ok x =>
      cases hxb : b.rawDigit j with
      | error e => exact ⟨rfl, fun r hr2 => Except.noConfusion hr2⟩
      | ok y =>
        have hx : x < a.prime := rawDigit_ok_bound hda hxa
        have hy : y < a.prime := rawDigit_ok_bound hdb hxb
        have hr0 : buf.getD (i + j) 0 < a.prime := getD_lt hp hbuf (i + j)
        have ht : buf.getD (i + j) 0 + x * y + c < Wm := mulStep_lt hp hr0 hx hy hc hW
        have htp : buf.getD (i + j) 0 + x * y + c < a.prime * a.prime :=
          mulStep_lt hp hr0 hx hy hc (Nat.le_refl _)
        have hset : ∀ e ∈ buf.set (i + j)
            ((buf.getD (i + j) 0 + x * y + c) % a.prime), e < a.prime := by
          intro e he
          rcases List.mem_or_eq_of_mem_set he with h | h
          · exact hbuf e h
          · rw [h]; exact Nat.mod_lt _ hp
        have hcar : (buf.getD (i + j) 0 + x * y + c) / a.prime < a.prime := by
          rw [Nat.div_lt_iff_lt_mul hp]
          omega
        have hIH := mulInnerGo_elim hp hda hdb hW i n (j + 1)
          (buf.set (i + j) ((buf.getD (i + j) 0 + x * y + c) % a.prime))
          ((buf.getD (i + j) 0 + x * y + c) / a.prime) hset hcar
        constructor
        · simp only [Nat.mod_eq_of_lt ht, Nat.mod_zero]
          exact hIH.1
        · simp only [Nat.mod_zero]
          exact hIH.2

theorem mulInnerGo_bridge {a b : PadicInteger} (hla : a.digits.length = a.precision)
    (hlb : b.digits.length = b.precision) {i : Nat} (hi : i < a.precision) :
    ∀ (n j : Nat) (buf : List Nat) (c : Nat), j + n ≤ b.precision →
    i + j + n ≤ buf.length →
    mulInnerGo a b 0 i j n buf c =
      .ok (buf.take (i + j) ++
          (rowGo a.prime (a.digits.getD i 0) ((b.digits.drop j).take n)
            (buf.drop (i + j)) c).1,
        (rowGo a.prime (a.digits.getD i 0) ((b.digits.drop j).take n)
          (buf.drop (i + j)) c).2)
  | 0, j, buf, c, _, _ => by
    simp [mulInnerGo, rowGo, List.take_append_drop]
  | n + 1, j, buf, c, hjn, hbuf => by
    have hib : i < a.digits.length := by omega
    have hjb : j < b.digits.length := by omega
    simp only [mulInnerGo, rawDigit_eq hib, rawDigit_eq hjb, Nat.mod_zero]
    rw [mulInnerGo_bridge hla hlb hi n (j + 1)
      (buf.set (i + j) ((buf.getD (i + j) 0 +
        a.digits.getD i 0 * b.digits.getD j 0 + c) % a.prime))
      ((buf.getD (i + j) 0 + a.digits.getD i 0 * b.digits.getD j 0 + c) / a.prime)
      (by omega) (by rw [List.length_set]; omega)]
    rw [drop_eq_getD_cons b.digits j hjb, List.take_succ_cons]
    rw [rowGo]
    simp only [headD_drop, List.tail_drop, Nat.add_succ]
    have hijlt : i + j < buf.length := by omega
    rw [take_set_succ buf (i + j) _ hijlt,
      List.drop_set_of_lt _ buf (Nat.lt_succ_self (i + j)),
      List.append_assoc, List.singleton_append]

theorem mulInnerGo_ne_mismatch (a b : PadicInteger) (Wm i : Nat) :
    ∀ (n j : Nat) (buf : List Nat) (c : Nat),
    mulInnerGo a b Wm i j n buf c ≠ .error .operandMismatch
  | 0, _, _, _ => fun h => Except.noConfusion h
  | n + 1, j, buf, c => by
    rw [mulInnerGo]
    cases hxa : a.rawDigit i with
    | error e =>
      have he := rawDigit_error hxa
      intro h
      injection h with h2
      rw [he] at h2
      exact Err.noConfusion h2
    | ok x =>
      cases hxb : b.rawDigit j with
      | error e =>
        have he := rawDigit_error hxb
        intro h
        injection h with h2
        rw [he] at h2
        exact Err.noConfusion h2
      | ok y =>
        exact mulInnerGo_ne_mismatch a b Wm i n (j + 1) _ _

theorem mulInnerGo_total (a b : PadicInteger) (Wm i : Nat)
    (hib : i < a.digits.length) : ∀ (n j : Nat) (buf : List Nat) (c : Nat),
    j + n ≤ b.digits.length → ∃ r, mulInnerGo a b Wm i j n buf c = .ok r
  | 0, _, buf, c, _ => ⟨(buf, c), rfl⟩
  | n + 1, j, buf, c, hjn => by
    obtain ⟨r, hr⟩ := mulInnerGo_total a b Wm i hib n (j + 1)
      (buf.set (i + j) ((buf.getD (i + j) 0 +
        a.digits.getD i 0 * b.digits.getD j 0 + c) % Wm % a.prime))
      ((buf.getD (i + j) 0 + a.digits.getD i 0 * b.digits.getD j 0 + c) % Wm / a.prime)
      (by omega)
    refine ⟨r, ?_⟩
    rw [mulInnerGo, rawDigit_eq hib, rawDigit_eq (by omega : j < b.digits.length)]
    exact hr

theorem mulOuterGo_elim {a b : PadicInteger} {Wm : Nat} (hp : 0 < a.prime)
    (hda : ∀ d ∈ a.digits, d < a.prime) (hdb : ∀ d ∈ b.digits, d < a.prime)
    (hW : a.prime * a.prime ≤ Wm) : ∀ (n i : Nat) (buf : List Nat),
    (∀ e ∈ buf, e < a.prime) →
    mulOuterGo a b Wm i n buf = mulOuterGo a b 0 i n buf
  | 0, _, _, _ => rfl
  | n + 1, i, buf, hbuf => by
    rw [mulOuterGo, mulOuterGo]
    obtain ⟨heq, hbnd⟩ := mulInnerGo_elim hp hda hdb hW i b.precision 0 buf 0 hbuf hp
    rw [heq]
    cases hres : mulInnerGo a b 0 i 0 b.precision buf 0 with
    | error e => rfl
    | ok r =>
      obtain ⟨hr1, hr2⟩ := hbnd r hres
      obtain ⟨r1, r2⟩ := r
      have hset : ∀ e ∈ r1.set (i + b.precision) r2, e < a.prime := by
        intro e he
        rcases List.mem_or_eq_of_mem_set he with h | h
        · exact hr1 e h
        · rw [h]; exact hr2
      exact mulOuterGo_elim hp hda hdb hW n (i + 1) (r1.set (i + b.precision) r2) hset

theorem mulOuterGo_bridge {a b : PadicInteger} (hla : a.digits.length = a.precision)
    (hlb : b.digits.length = b.precision) : ∀ (n i : Nat) (buf : List Nat),
    i + n ≤ a.precision → i + n + b.precision ≤ buf.length →
    mulOuterGo a b 0 i n buf =
      .ok (buf.take i ++
        mulAcc a.prime b.precision b.digits ((a.digits.drop i).take n) (buf.drop i))
  | 0, i, buf, _, _ => by
    simp [mulOuterGo, mulAcc, List.take_append_drop]
  | n + 1, i, buf, hn, hbuf => by
    have hi : i < a.precision := by omega
    have hib : i < a.digits.length := by omega
    rw [mulOuterGo]
    rw [mulInnerGo_bridge hla hlb hi b.precision 0 buf 0 (by omega) (by omega)]
    simp only [Nat.add_zero, List.drop_zero, List.take_of_length_le (le_of_eq hlb)]
    rw [List.set_append, if_neg (by rw [List.length_take]; omega)]
    have hidx : i + b.precision - (List.take i buf).length = b.precision := by
      rw [List.length_take]; omega
    rw [hidx]
    have hrowlen : (rowGo a.prime (a.digits.getD i 0) b.digits (buf.drop i) 0).1.length
        = (buf.drop i).length :=
      rowGo_length a.prime (a.digits.getD i 0) b.digits (buf.drop i) 0
        (by rw [List.length_drop]; omega)
    rw [mulOuterGo_bridge hla hlb n (i + 1)
      (List.take i buf ++
        (rowGo a.prime (a.digits.getD i 0) b.digits (buf.drop i) 0).1.set
          b.precision (rowGo a.prime (a.digits.getD i 0) b.digits (buf.drop i) 0).2)
      (by omega)
      (by
        rw [List.length_append, List.length_take, List.length_set, hrowlen,
          List.length_drop]
        omega)]
    rw [drop_eq_getD_cons a.digits i hib, List.take_succ_cons]
    simp only [mulAcc]
    have hb2len : ((rowGo a.prime (a.digits.getD i 0) b.digits (buf.drop i) 0).1.set
        b.precision (rowGo a.prime (a.digits.getD i 0) b.digits (buf.drop i) 0).2).length
        = buf.length - i := by
      rw [List.length_set, hrowlen, List.length_drop]
    have hb2ne : (rowGo a.prime (a.digits.getD i 0) b.digits (buf.drop i) 0).1.set
        b.precision (rowGo a.prime (a.digits.getD i 0) b.digits (buf.drop i) 0).2 ≠ [] := by
      intro hnil
      rw [hnil] at hb2len
      simp at hb2len
      omega
    have hidx2 : i + 1 = (List.take i buf).length + 1 := by
      rw [List.length_take]; omega
    rw [hidx2, List.take_append, List.drop_append, take_one_headD _ hb2ne,
      List.drop_one, List.append_assoc, List.singleton_append]

theorem mulOuterGo_ne_mismatch (a b : PadicInteger) (Wm : Nat) :
    ∀ (n i : Nat) (buf : List Nat),
    mulOuterGo a b Wm i n buf ≠ .error .operandMismatch
  | 0, _, _ => fun h => Except.noConfusion h
  | n + 1, i, buf => by
    rw [mulOuterGo]
    cases hres : mulInnerGo a b Wm i 0 b.precision buf 0 with
    | error e =>
      have hne := mulInnerGo_ne_mismatch a b Wm i b.precision 0 buf 0
      rw [hres] at hne
      simpa using hne
    | ok r =>
      obtain ⟨r1, r2⟩ := r
      exact mulOuterGo_ne_mismatch a b Wm n (i + 1) (r1.set (i + b.precision) r2)

theorem mulOuterGo_total (a b : PadicInteger) (Wm : Nat)
    (hla : a.digits.length = a.precision) (hlb : b.digits.length = b.precision) :
    ∀ (n i : Nat) (buf : List Nat), i + n ≤ a.precision →
    ∃ ds, mulOuterGo a b Wm i n buf = .ok ds
  | 0, _, buf, _ => ⟨buf, rfl⟩
  | n + 1, i, buf, hn => by
    obtain ⟨r, hr⟩ := mulInnerGo_total a b Wm i (by omega) b.precision 0 buf 0 (by omega)
    obtain ⟨r1, r2⟩ := r
    obtain ⟨ds, hds⟩ := mulOuterGo_total a b Wm hla hlb n (i + 1)
      (r1.set (i + b.precision) r2) (by omega)
    refine ⟨ds, ?_⟩
    rw [mulOuterGo, hr]
    exact hds

/-- Every buffer entry after the (unbounded-modulus) outer loop is
below the prime, given in-range operand digits and an in-range starting
buffer. -/
theorem mulOuterGo_bounds {a b : PadicInteger} (hp : 0 < a.prime)
    (hda : ∀ d ∈ a.digits, d < a.prime) (hdb : ∀ d ∈ b.digits, d < a.prime) :
    ∀ (n i : Nat) (buf : List Nat), (∀ e ∈ buf, e < a.prime) →
    ∀ ds, mulOuterGo a b 0 i n buf = .ok ds → ∀ e ∈ ds, e < a.prime
  | 0, _, _, hbuf, ds, h => by
    injection h with h2
    rw [← h2]
    exact hbuf
  | n + 1, i, buf, hbuf, ds, h => by
    rw [mulOuterGo] at h
    obtain ⟨heq, hbnd⟩ := mulInnerGo_elim hp hda hdb (Nat.le_refl (a.prime * a.prime))
      i b.precision 0 buf 0 hbuf hp
    cases hres : mulInnerGo a b 0 i 0 b.precision buf 0 with
    | error e =>
      rw [hres] at h
      exact Except.noConfusion h
    | ok r =>
      rw [hres] at h
      obtain ⟨hr1, hr2⟩ := hbnd r hres
      obtain ⟨r1, r2⟩ := r
      have hset : ∀ e ∈ r1.set (i + b.precision) r2, e < a.prime := by
        intro e he
        rcases List.mem_or_eq_of_mem_set he with h3 | h3
        · exact hr1 e h3
        · rw [h3]; exact hr2
      exact mulOuterGo_bounds hp hda hdb n (i + 1)
        (r1.set (i + b.precision) r2) hset ds h

/-! ## `__mul__` characterised -/

theorem mul_ok (a b : PadicInteger) (hp : 0 < a.prime) (hpr : b.prime = a.prime)
    (hla : a.digits.length = a.precision) (hlb : b.digits.length = b.precision)
    (hda : ∀ d ∈ a.digits, d < a.prime) (hdb : ∀ d ∈ b.digits, d < a.prime)
    (hW : a.prime * a.prime ≤ dtypeBound a.prime) :
    a.mul b = .ok ⟨a.prime, a.precision + b.precision,
      mulAcc a.prime b.precision b.digits a.digits
        (List.replicate (a.precision + b.precision) 0)⟩ := by
  unfold PadicInteger.mul
  rw [if_neg (fun h => h hpr.symm)]
  rw [mulOuterGo_elim hp hda hdb hW a.precision 0
    (List.replicate (a.precision + b.precision) 0)
    (fun e he => by rw [List.eq_of_mem_replicate he]; exact hp)]
  rw [mulOuterGo_bridge hla hlb a.precision 0 _ (by omega)
    (by rw [List.length_replicate]; omega)]
  simp only [List.take_zero, List.drop_zero, List.nil_append, Except.map, listToPadic]
  rw [List.take_of_length_le (le_of_eq hla)]
  have hml : (mulAcc a.prime b.precision b.digits a.digits
      (List.replicate (a.precision + b.precision) 0)).length =
      a.precision + b.precision := by
    rw [mulAcc_length a.prime b.precision b.digits a.digits _ (by
      rw [List.length_replicate]; omega), List.length_replicate]
  have hWp : a.prime ≤ dtypeBound a.prime :=
    le_trans (Nat.le_mul_of_pos_left a.prime hp) hW
  rw [List.take_of_length_le (le_of_eq hml),
    castDigits_id (dtypeBound a.prime) _ (fun e he => lt_of_lt_of_le
      (mulAcc_bounds a.prime hp b.precision b.digits hdb a.digits
        (List.replicate (a.precision + b.precision) 0) hda
        (fun x hx => by rw [List.eq_of_mem_replicate hx]; exact hp) e he)
      hWp)]

/-- C3: for same-prime operands with full-length, in-range digit lists
and `prime²` within the selected digit width, `__mul__` returns the
schoolbook convolution at precision exactly
`a.precision + b.precision`, with no truncation: the result's value is
the exact integer product of the operands' values. -/
theorem mul_exact_product (a b : PadicInteger) (hp : 2 ≤ a.prime)
    (hpr : b.prime = a.prime) (hla : a.digits.length = a.precision)
    (hlb : b.digits.length = b.precision) (hda : ∀ d ∈ a.digits, d < a.prime)
    (hdb : ∀ d ∈ b.digits, d < a.prime)
    (hW : a.prime * a.prime ≤ dtypeBound a.prime) :
    ∃ ds, a.mul b = .ok ⟨a.prime, a.precision + b.precision, ds⟩ ∧
      ds.length = a.precision + b.precision ∧
      padicValue a.prime ds =
        padicValue a.prime a.digits * padicValue a.prime b.digits := by
  have hp0 : 0 < a.prime := by omega
  have hml : (mulAcc a.prime b.precision b.digits a.digits
      (List.replicate (a.precision + b.precision) 0)).length =
      a.precision + b.precision := by
    rw [mulAcc_length a.prime b.precision b.digits a.digits _ (by
      rw [List.length_replicate]; omega), List.length_replicate]
  refine ⟨mulAcc a.prime b.precision b.digits a.digits
      (List.replicate (a.precision + b.precision) 0),
    mul_ok a b hp0 hpr hla hlb hda hdb hW, hml, ?_⟩
  rw [mulAcc_value a.prime hp0 b.precision b.digits hlb a.digits
      (List.replicate (a.precision + b.precision) 0)
      (by rw [List.length_replicate]; omega)
      (fun e he => List.eq_of_mem_replicate (List.mem_of_mem_drop he)),
    padicValue_replicate_zero, Nat.zero_add]

/-- Witness for C3 at the spec's concrete scenario (123 × 456 in base 5,
precisions 10 and 10, result precision 20, value 56088). -/
theorem mul_exact_product_witness :
    ∃ ds, PadicInteger.mul ⟨5, 10, [3, 4, 4, 0, 0, 0, 0, 0, 0, 0]⟩
        ⟨5, 10, [1, 1, 3, 3, 0, 0, 0, 0, 0, 0]⟩ = .ok ⟨5, 10 + 10, ds⟩ ∧
      ds.length = 10 + 10 ∧
      padicValue 5 ds =
        padicValue 5 [3, 4, 4, 0, 0, 0, 0, 0, 0, 0] *
          padicValue 5 [1, 1, 3, 3, 0, 0, 0, 0, 0, 0] :=
  mul_exact_product ⟨5, 10, [3, 4, 4, 0, 0, 0, 0, 0, 0, 0]⟩
    ⟨5, 10, [1, 1, 3, 3, 0, 0, 0, 0, 0, 0]⟩ (by decide) (by decide) (by decide)
    (by decide) (by decide) (by decide) (by decide)

/-- C3 counterexample: with prime 17 (8-bit storage, `17² > 256`) and
single digits 16 × 16, the digit product wraps (`256 mod 256 = 0`), so
the code returns digits `[0, 0]` (value 0) instead of the exact product
256. -/
theorem mul_exact_counterexample :
    PadicInteger.mul ⟨17, 1, [16]⟩ ⟨17, 1, [16]⟩ = .ok ⟨17, 2, [0, 0]⟩ ∧
    padicValue 17 [0, 0] = 0 ∧
    padicValue 17 [16] * padicValue 17 [16] = 256 ∧ (0 : Nat) ≠ 256 :=
  ⟨rfl, rfl, rfl, by decide⟩

/-! ## The integer constructor -/

theorem toNat_emod (m p : Nat) : ((m : Int) % (p : Int)).toNat = m % p := by
  rw [← Int.natCast_mod, Int.toNat_natCast]

/-- Every digit produced by the `_int_to_padic` loop is below the
prime: each is a floor-mod residue by the prime. -/
theorem intToPadicGo_lt (p : Nat) (hp : 0 < p) : ∀ (k : Nat) (n : Int),
    ∀ d ∈ intToPadicGo p k n, d < p
  | k + 1, n, d, hd => by
    rcases List.mem_cons.mp hd with h | h
    · rw [h]
      have h0 : (0 : Int) < (p : Int) := by exact_mod_cast hp
      exact (Int.toNat_lt (Int.emod_nonneg n (ne_of_gt h0))).mpr
        (Int.emod_lt_of_pos n h0)
    · exact intToPadicGo_lt p hp k (Int.ediv n p) d h

theorem intToPadicGo_natCast (p : Nat) : ∀ (k m : Nat),
    intToPadicGo p k (m : Int) = toDigits p k m
  | 0, _ => rfl
  | k + 1, m => by
    rw [intToPadicGo, toDigits, intEmod_eq, intEdiv_eq, toNat_emod, ← Int.natCast_div,
      intToPadicGo_natCast p k (m / p)]

/-- Splitting one base-`p` digit off an Euclidean remainder: the
quotient by `p` of `n mod p ^ (k+1)` is `(n div p) mod p ^ k`. -/
theorem emod_pow_ediv (p k : Nat) (hp : 0 < p) (n : Int) :
    n % (p : Int) ^ (k + 1) / p = n / p % (p : Int) ^ k := by
  have hpne : ((p : Int)) ≠ 0 := Int.natCast_ne_zero.mpr (by omega)
  have hppos : (0 : Int) < p := by exact_mod_cast hp
  have hpk1 : (0 : Int) < (p : Int) ^ (k + 1) := by positivity
  have hdecomp : n = n % (p : Int) ^ (k + 1) +
      ((p : Int) ^ k * (n / (p : Int) ^ (k + 1))) * p := by
    have hde := Int.ediv_add_emod n ((p : Int) ^ (k + 1))
    linear_combination -hde
  have h1 : n / (p : Int) =
      n % (p : Int) ^ (k + 1) / p + (p : Int) ^ k * (n / (p : Int) ^ (k + 1)) := by
    conv_lhs => rw [hdecomp]
    exact Int.add_mul_ediv_right _ _ hpne
  rw [h1, Int.add_mul_emod_self_left]
  exact (Int.emod_eq_of_lt
    (Int.ediv_nonneg (Int.emod_nonneg n (ne_of_gt hpk1)) (le_of_lt hppos))
    ((Int.ediv_lt_iff_lt_mul hppos).mpr (by
      rw [← pow_succ]
      exact Int.emod_lt_of_pos n hpk1))).symm

theorem intToPadicGo_emod (p : Nat) (hp : 0 < p) : ∀ (k : Nat) (n : Int),
    intToPadicGo p k n = toDigits p k ((n % (p : Int) ^ k).toNat)
  | 0, _ => rfl
  | k + 1, n => by
    have hpk1 : (0 : Int) < (p : Int) ^ (k + 1) := by positivity
    have hr0 : (0 : Int) ≤ n % (p : Int) ^ (k + 1) := Int.emod_nonneg n (ne_of_gt hpk1)
    rw [intToPadicGo, toDigits, intEmod_eq, intEdiv_eq]
    congr 1
    · rw [← Int.emod_emod_of_dvd n (dvd_pow_self (p : Int) (Nat.succ_ne_zero k)),
        ← Int.toNat_of_nonneg hr0, toNat_emod, Int.toNat_natCast]
    · rw [intToPadicGo_emod p hp k (n / p)]
      congr 1
      rw [← emod_pow_ediv p k hp n, ← Int.toNat_of_nonneg hr0, ← Int.natCast_div,
        Int.toNat_natCast, Int.toNat_natCast]

/-! ## A prime above `2 ^ 32`

`206158430209 = 3 * 2 ^ 36 + 1` is prime (a Proth prime), certified
through `lucas_primality` with the kernel-computable `powMod`: at such a
prime the selected dtype is `uint32` and a digit `≥ 2 ^ 32` is altered
by the constructor's cast. -/

theorem powModAux_eq (m : Nat) : ∀ (fuel : Nat) (a e : Nat), e ≤ fuel →
    powModAux m a fuel e = a ^ e % m
  | 0, a, e, he => by
    rw [Nat.le_zero] at he
    subst he
    rw [powModAux, pow_zero]
  | fuel + 1, a, e, he => by
    rw [powModAux]
    by_cases h0 : e = 0
    · rw [if_pos h0, h0, pow_zero]
    · rw [if_neg h0]
      have hrec := powModAux_eq m fuel (a * a % m) (e / 2) (by omega)
      have hpow : (a * a % m) ^ (e / 2) % m = a ^ (2 * (e / 2)) % m := by
        rw [← Nat.pow_mod, ← pow_two, ← pow_mul]
      by_cases h2 : e % 2 = 1
      · rw [if_pos h2, hrec, hpow]
        conv_rhs => rw [show e = 2 * (e / 2) + 1 by omega]
        conv_rhs => rw [pow_succ, Nat.mul_mod]
        rw [Nat.mul_comm]
      · rw [if_neg h2, hrec, hpow]
        conv_rhs => rw [show e = 2 * (e / 2) by omega]

theorem powMod_eq (m a e : Nat) : powMod m a e = a ^ e % m :=
  powModAux_eq m e a e (Nat.le_refl e)

theorem zmod_pow_eq_one_iff (P w e : Nat) :
    ((w : Nat) : ZMod P) ^ e = 1 ↔ powMod P w e = 1 % P := by
  rw [← Nat.cast_pow, ← Nat.cast_one, ZMod.natCast_eq_natCast_iff, powMod_eq]
  exact Iff.rfl

theorem prime_206158430209 : Nat.Prime 206158430209 := by
  have hP1 : (206158430209 : Nat) - 1 = 2 ^ 36 * 3 := by norm_num
  refine lucas_primality 206158430209 ((22 : Nat) : ZMod 206158430209) ?_ ?_
  · rw [zmod_pow_eq_one_iff]
    decide
  · intro q hq hdvd
    have hq23 : q = 2 ∨ q = 3 := by
      rw [hP1] at hdvd
      rcases (Nat.Prime.dvd_mul hq).mp hdvd with h | h
      · exact Or.inl ((Nat.prime_dvd_prime_iff_eq hq Nat.prime_two).mp
          (Nat.Prime.dvd_of_dvd_pow hq h))
      · exact Or.inr ((Nat.prime_dvd_prime_iff_eq hq Nat.prime_three).mp h)
    rcases hq23 with rfl | rfl
    · rw [Ne, zmod_pow_eq_one_iff]
      decide
    · rw [Ne, zmod_pow_eq_one_iff]
      decide

/-- C10 (amended): for a prime whose digits fit the selected dtype
(`p ≤ 2 ^ w`, automatic below `2 ^ 32`), construction from any integer
(negative included) follows Python floor division and modulo
(`Int.ediv` / `Int.emod`, written `/` and `%` below): every digit lies
in `[0, p-1]`, the digit list is the little-endian base-`p` expansion
of `n mod p ^ k` (`toDigits`), and so
`construct(n, p, k) = construct(n mod p ^ k, p, k)`.  Above `2 ^ 32`
the dtype cast alters digits `≥ 2 ^ 32` (see the counterexample). -/
theorem construct_int_mod_pow (n : Int) (p k : Nat) (hp : 2 ≤ p)
    (hpW : p ≤ dtypeBound p) :
    (∀ d ∈ (intToPadic n p k).digits, d < p) ∧
    intToPadic n p k = intToPadic (n % (p : Int) ^ k) p k ∧
    (intToPadic n p k).digits = toDigits p k ((n % (p : Int) ^ k).toNat) := by
  have hp0 : 0 < p := by omega
  have hcast : ∀ m : Int, (intToPadic m p k).digits = intToPadicGo p k m := fun m =>
    castDigits_id (dtypeBound p) _
      (fun d hd => lt_of_lt_of_le (intToPadicGo_lt p hp0 k m d hd) hpW)
  have h1 : intToPadicGo p k n = toDigits p k ((n % (p : Int) ^ k).toNat) :=
    intToPadicGo_emod p hp0 k n
  refine ⟨?_, ?_, ?_⟩
  · rw [hcast n, h1]
    exact toDigits_lt p hp0 k _
  · show (⟨p, k, castDigits (dtypeBound p) (intToPadicGo p k n)⟩ : PadicInteger) =
      ⟨p, k, castDigits (dtypeBound p) (intToPadicGo p k (n % (p : Int) ^ k))⟩
    congr 1
    rw [h1, intToPadicGo_emod p hp0 k (n % (p : Int) ^ k),
      Int.emod_emod_of_dvd n dvd_rfl]
  · rw [hcast n, h1]

/-- Witness for C10 at `n = -7`, prime 5, precision 3 (digits
`[3, 3, 4]`, representing `-7 mod 125 = 118`). -/
theorem construct_int_mod_pow_witness :
    (∀ d ∈ (intToPadic (-7) 5 3).digits, d < 5) ∧
    intToPadic (-7) 5 3 = intToPadic ((-7) % (5 : Int) ^ 3) 5 3 ∧
    (intToPadic (-7) 5 3).digits = toDigits 5 3 (((-7) % (5 : Int) ^ 3).toNat) :=
  construct_int_mod_pow (-7) 5 3 (by decide) (by decide)

/-- C10 counterexample: at the prime `206158430209 = 3 * 2 ^ 36 + 1`
(above `2 ^ 32`, dtype `uint32`) and `n = 2 ^ 32`, the expansion of
`n mod p ^ 1` is `[4294967296]`, but the constructed digit is wrapped
to `0` by the dtype cast (numpy ≥ 2.0 raises instead; either way the
stated digits are not produced). -/
theorem construct_int_mod_pow_counterexample :
    Nat.Prime 206158430209 ∧
    toDigits 206158430209 1 (((4294967296 : Int) % (206158430209 : Int) ^ 1).toNat) =
      [4294967296] ∧
    (intToPadic (4294967296 : Int) 206158430209 1).digits = [0] ∧
    ([0] : List Nat) ≠ [4294967296] :=
  ⟨prime_206158430209, rfl, rfl, by decide⟩

/-- C4 (amended): for a non-negative integer `n`, prime `p ≥ 2` whose
digits fit the selected dtype (`p ≤ 2 ^ w`, automatic below `2 ^ 32`)
and precision `k ≥ 1`, construction produces exactly the little-endian
base-`p` expansion of `n mod p ^ k`, zero-padded to length `k` (digit
`i` is `n mod p ^ k / p ^ i mod p`).  Above `2 ^ 32` the dtype cast
alters expansion digits `≥ 2 ^ 32` (see the counterexample). -/
theorem construct_nat_digits (n p k : Nat) (hp : 2 ≤ p) (_hk : 1 ≤ k)
    (hpW : p ≤ dtypeBound p) :
    (intToPadic (n : Int) p k).digits = toDigits p k (n % p ^ k) ∧
    (intToPadic (n : Int) p k).digits.length = k ∧
    (∀ i, i < k →
      (intToPadic (n : Int) p k).digits.get? i = some (n % p ^ k / p ^ i % p)) := by
  have hp0 : 0 < p := by omega
  have hcast : (intToPadic (n : Int) p k).digits = intToPadicGo p k (n : Int) :=
    castDigits_id (dtypeBound p) _
      (fun d hd => lt_of_lt_of_le (intToPadicGo_lt p hp0 k _ d hd) hpW)
  have h1 : (intToPadic (n : Int) p k).digits = toDigits p k n := by
    rw [hcast]
    exact intToPadicGo_natCast p k n
  have h2 : (intToPadic (n : Int) p k).digits = toDigits p k (n % p ^ k) := by
    rw [h1]
    exact (toDigits_mod p k n).symm
  refine ⟨h2, ?_, ?_⟩
  · rw [h2, toDigits_length]
  · intro i hi
    rw [h2, toDigits_get? p k (n % p ^ k) i hi]

/-- Witness for C4 at the spec's concrete scenario
(`construct(123, 5, 10)`, digits `[3, 4, 4, 0, 0, 0, 0, 0, 0, 0]`). -/
theorem construct_nat_digits_witness :
    (intToPadic (123 : Nat) 5 10).digits = toDigits 5 10 (123 % 5 ^ 10) ∧
    (intToPadic (123 : Nat) 5 10).digits.length = 10 ∧
    (∀ i, i < 10 →
      (intToPadic (123 : Nat) 5 10).digits.get? i =
        some (123 % 5 ^ 10 / 5 ^ i % 5)) :=
  construct_nat_digits 123 5 10 (by decide) (by decide) (by decide)

/-- C4 counterexample: at the prime `206158430209 = 3 * 2 ^ 36 + 1`
(above `2 ^ 32`, dtype `uint32`) and `n = 2 ^ 32`, the expansion of
`n mod p ^ 1` is `[4294967296]`, but the constructed digit is wrapped
to `0` by the dtype cast (numpy ≥ 2.0 raises instead; either way the
expansion digits are not produced). -/
theorem construct_nat_digits_counterexample :
    Nat.Prime 206158430209 ∧
    toDigits 206158430209 1 (4294967296 % 206158430209 ^ 1) = [4294967296] ∧
    (intToPadic ((4294967296 : Nat) : Int) 206158430209 1).digits = [0] ∧
    ([0] : List Nat) ≠ [4294967296] :=
  ⟨prime_206158430209, rfl, rfl, by decide⟩

/-- C7 (amended): constructing from an explicit in-range digit list
whose length already equals the precision copies the list verbatim — no
truncation and no padding — provided the prime's digits fit the
selected dtype (`p ≤ 2 ^ w`, automatic below `2 ^ 32`).  Above `2 ^ 32`
the dtype cast can alter a stored digit (see the counterexample). -/
theorem construct_list_roundtrip (l : List Nat) (p k : Nat) (_hp : 2 ≤ p)
    (hl : l.length = k) (hd : ∀ d ∈ l, d < p) (hpW : p ≤ dtypeBound p) :
    (listToPadic l p k).digits = l := by
  show castDigits (dtypeBound p) (l.take k) = l
  rw [castDigits_id (dtypeBound p) _
      (fun d hd2 => lt_of_lt_of_le (hd d (List.mem_of_mem_take hd2)) hpW),
    ← hl, List.take_length]

/-- Witness for C7 at `[1, 2, 3]`, prime 5, precision 3. -/
theorem construct_list_roundtrip_witness : (listToPadic [1, 2, 3] 5 3).digits = [1, 2, 3] :=
  construct_list_roundtrip [1, 2, 3] 5 3 (by decide) (by decide) (by decide) (by decide)

/-- C7 counterexample: at the prime `206158430209 = 3 * 2 ^ 36 + 1`
(above `2 ^ 32`, dtype `uint32`), the in-range single-digit list
`[4294967296]` of length 1 is not copied verbatim: the dtype cast wraps
the digit to `0` (numpy ≥ 2.0 raises instead; either way the list does
not round-trip). -/
theorem construct_list_roundtrip_counterexample :
    Nat.Prime 206158430209 ∧ (4294967296 : Nat) < 206158430209 ∧
    (listToPadic [4294967296] 206158430209 1).digits = [0] ∧
    ([0] : List Nat) ≠ [4294967296] :=
  ⟨prime_206158430209, by decide, rfl, by decide⟩

/-! ## The prime-mismatch check -/

theorem map_eq_error_iff {α β : Type} (f : α → β) (x : Except Err α) (e : Err) :
    x.map f = .error e ↔ x = .error e := by
  cases x <;> simp [Except.map]

/-- C5: each binary operator fails with `OperandMismatch` (the
`ValueError` on differing primes) exactly when the operands' primes
differ.  The check is the first statement of each operator, so when it
fires the error is returned for arbitrary digit contents — no digit is
read — and, the embedding being pure value records, the operands are
never modified. -/
theorem operand_mismatch_iff (a b : PadicInteger) :
    (a.add b = .error .operandMismatch ↔ a.prime ≠ b.prime) ∧
    (a.sub b = .error .operandMismatch ↔ a.prime ≠ b.prime) ∧
    (a.mul b = .error .operandMismatch ↔ a.prime ≠ b.prime) := by
  refine ⟨?_, ?_, ?_⟩
  · unfold PadicInteger.add
    by_cases h : a.prime ≠ b.prime
    · rw [if_pos h]
      exact ⟨fun _ => h, fun _ => rfl⟩
    · rw [if_neg h]
      constructor
      · intro hcon
        exact absurd ((map_eq_error_iff _ _ _).mp hcon) (addGo_ne_mismatch a b _ _ _ _)
      · intro hcon
        exact absurd hcon h
  · unfold PadicInteger.sub
    by_cases h : a.prime ≠ b.prime
    · rw [if_pos h]
      exact ⟨fun _ => h, fun _ => rfl⟩
    · rw [if_neg h]
      constructor
      · intro hcon
        exact absurd ((map_eq_error_iff _ _ _).mp hcon) (subGo_ne_mismatch a b _ _ _ _)
      · intro hcon
        exact absurd hcon h
  · unfold PadicInteger.mul
    by_cases h : a.prime ≠ b.prime
    · rw [if_pos h]
      exact ⟨fun _ => h, fun _ => rfl⟩
    · rw [if_neg h]
      constructor
      · intro hcon
        exact absurd ((map_eq_error_iff _ _ _).mp hcon)
          (mulOuterGo_ne_mismatch a b _ _ _ _)
      · intro hcon
        exact absurd hcon h

/-! ## Totality on full-length digit lists, failure on short ones -/

/-- C6 (amended): the three operators are total — they return a result
without raising — for same-prime operands whose stored digit lists are
as long as their precisions (the shape every constructor call with an
integer produces); no digit-range or width condition is needed. -/
theorem ops_total_on_full_length (a b : PadicInteger) (hpr : b.prime = a.prime)
    (hla : a.digits.length = a.precision) (hlb : b.digits.length = b.precision) :
    (∃ r, a.add b = .ok r) ∧ (∃ r, a.sub b = .ok r) ∧ (∃ r, a.mul b = .ok r) := by
  refine ⟨?_, ?_, ?_⟩
  · obtain ⟨ds, hds⟩ := addGo_total a b (dtypeBound a.prime) hla hlb
      (max a.precision b.precision) 0 0
    exact ⟨_, by unfold PadicInteger.add; rw [if_neg (fun h => h hpr.symm), hds]; rfl⟩
  · obtain ⟨ds, hds⟩ := subGo_total a b (dtypeBound a.prime) hla hlb
      (max a.precision b.precision) 0 0
    exact ⟨_, by unfold PadicInteger.sub; rw [if_neg (fun h => h hpr.symm), hds]; rfl⟩
  · obtain ⟨ds, hds⟩ := mulOuterGo_total a b (dtypeBound a.prime) hla hlb
      a.precision 0 (List.replicate (a.precision + b.precision) 0) (by omega)
    exact ⟨_, by unfold PadicInteger.mul; rw [if_neg (fun h => h hpr.symm), hds]; rfl⟩

/-- Witness for C6 (amended) at prime 7, precisions 2 and 1, full-length
digit lists. -/
theorem ops_total_on_full_length_witness :
    (∃ r, PadicInteger.add ⟨7, 2, [3, 4]⟩ ⟨7, 1, [5]⟩ = .ok r) ∧
    (∃ r, PadicInteger.sub ⟨7, 2, [3, 4]⟩ ⟨7, 1, [5]⟩ = .ok r) ∧
    (∃ r, PadicInteger.mul ⟨7, 2, [3, 4]⟩ ⟨7, 1, [5]⟩ = .ok r) :=
  ops_total_on_full_length ⟨7, 2, [3, 4]⟩ ⟨7, 1, [5]⟩ (by decide) (by decide) (by decide)

/-- C6 counterexample: a value built from a digit list shorter than its
precision — which the constructor accepts without padding
(`PadicInteger([1], 5, 2)`) — makes all three operators raise
`IndexError` (`digits[1]` is read under the guard `1 < precision`), so
they are not total on the data model as claimed. -/
theorem ops_short_digits_counterexample :
    PadicInteger.add (listToPadic [1] 5 2) (listToPadic [1] 5 2) = .error .indexError ∧
    PadicInteger.sub (listToPadic [1] 5 2) (listToPadic [1] 5 2) = .error .indexError ∧
    PadicInteger.mul (listToPadic [1] 5 2) (listToPadic [1] 5 2) = .error .indexError :=
  ⟨rfl, rfl, rfl⟩

/-! ## Width refinement -/

/-- C8 (amended): the selected digit width is semantically transparent
whenever every intermediate value fits in it: construction stores digit
values exactly as unbounded storage would whenever `prime ≤ 2 ^ w`
(automatic below `2 ^ 32`), and with digits in range `__add__` and
`__sub__` agree with the unbounded-storage pipeline whenever
`2 * prime ≤ 2 ^ w` while `__mul__` agrees whenever `prime² ≤ 2 ^ w`.
The counterexample shows the width choice is not transparent in
general. -/
theorem width_refinement_bounded (a b : PadicInteger) (hp : 2 ≤ a.prime)
    (hda : ∀ d ∈ a.digits, d < a.prime) (hdb : ∀ d ∈ b.digits, d < b.prime) :
    (a.prime ≤ dtypeBound a.prime →
      (∀ n k, intToPadic n a.prime k = intToPadicU n a.prime k) ∧
      ∀ l k, (∀ d ∈ l, d < a.prime) → listToPadic l a.prime k = listToPadicU l a.prime k) ∧
    (2 * a.prime ≤ dtypeBound a.prime → a.add b = a.addU b ∧ a.sub b = a.subU b) ∧
    (a.prime * a.prime ≤ dtypeBound a.prime → a.mul b = a.mulU b) := by
  have hp0 : 0 < a.prime := by omega
  refine ⟨?_, ?_, ?_⟩
  · intro hpW
    constructor
    · intro n k
      show (⟨a.prime, k, castDigits (dtypeBound a.prime) (intToPadicGo a.prime k n)⟩ :
          PadicInteger) = ⟨a.prime, k, intToPadicGo a.prime k n⟩
      rw [castDigits_id (dtypeBound a.prime) _
        (fun d hd => lt_of_lt_of_le (intToPadicGo_lt a.prime hp0 k n d hd) hpW)]
    · intro l k hl
      show (⟨a.prime, k, castDigits (dtypeBound a.prime) (l.take k)⟩ : PadicInteger) =
        ⟨a.prime, k, l.take k⟩
      rw [castDigits_id (dtypeBound a.prime) _
        (fun d hd => lt_of_lt_of_le (hl d (List.mem_of_mem_take hd)) hpW)]
  · intro h2W
    have hWp : a.prime ≤ dtypeBound a.prime := by omega
    by_cases hpr : a.prime = b.prime
    · have hdb2 : ∀ d ∈ b.digits, d < a.prime := by rw [hpr]; exact hdb
      constructor
      · unfold PadicInteger.add PadicInteger.addU
        rw [addGo_elim hp0 hda hdb2 h2W (max a.precision b.precision) 0 0 (by omega)]
        cases hres : addGo a b 0 0 (max a.precision b.precision) 0 with
        | error e => rfl
        | ok ds =>
          have hds := addGo_ok_bounds hp0 0 (max a.precision b.precision) 0 0 ds hres
          simp only [Except.map]
          unfold listToPadic listToPadicU
          rw [castDigits_id (dtypeBound a.prime) _
            (fun d hd => lt_of_lt_of_le (hds d (List.mem_of_mem_take hd)) hWp)]
      · unfold PadicInteger.sub PadicInteger.subU
        rw [subGo_elim hp0 hda hdb2 h2W (max a.precision b.precision) 0 0 (by omega)]
        cases hres : subGo a b 0 0 (max a.precision b.precision) 0 with
        | error e => rfl
        | ok ds =>
          have hds := subGo_ok_bounds hp0 0 (max a.precision b.precision) 0 0 ds hres
          simp only [Except.map]
          unfold listToPadic listToPadicU
          rw [castDigits_id (dtypeBound a.prime) _
            (fun d hd => lt_of_lt_of_le (hds d (List.mem_of_mem_take hd)) hWp)]
    · constructor
      · simp only [PadicInteger.add, PadicInteger.addU, if_pos hpr]
      · simp only [PadicInteger.sub, PadicInteger.subU, if_pos hpr]
  · intro hsqW
    have hWp : a.prime ≤ dtypeBound a.prime :=
      le_trans (Nat.le_mul_of_pos_left a.prime hp0) hsqW
    by_cases hpr : a.prime = b.prime
    · have hdb2 : ∀ d ∈ b.digits, d < a.prime := by rw [hpr]; exact hdb
      unfold PadicInteger.mul PadicInteger.mulU
      rw [mulOuterGo_elim hp0 hda hdb2 hsqW a.precision 0 _ (fun e he => by
        rw [List.eq_of_mem_replicate he]; exact hp0)]
      cases hres : mulOuterGo a b 0 0 a.precision
          (List.replicate (a.precision + b.precision) 0) with
      | error e => rfl
      | ok ds =>
        have hds := mulOuterGo_bounds hp0 hda hdb2 a.precision 0 _
          (fun e he => by rw [List.eq_of_mem_replicate he]; exact hp0) ds hres
        simp only [Except.map]
        unfold listToPadic listToPadicU
        rw [castDigits_id (dtypeBound a.prime) _
          (fun d hd => lt_of_lt_of_le (hds d (List.mem_of_mem_take hd)) hWp)]
    · simp only [PadicInteger.mul, PadicInteger.mulU, if_pos hpr]

/-- Witness for C8 (amended) at the spec scenario (base 5, all width
bounds hold for the `uint8` dtype). -/
theorem width_refinement_bounded_witness :
    (5 ≤ dtypeBound 5 →
      (∀ n k, intToPadic n 5 k = intToPadicU n 5 k) ∧
      ∀ l k, (∀ d ∈ l, d < 5) → listToPadic l 5 k = listToPadicU l 5 k) ∧
    (2 * 5 ≤ dtypeBound 5 →
      PadicInteger.add ⟨5, 10, [3, 4, 4, 0, 0, 0, 0, 0, 0, 0]⟩
          ⟨5, 10, [1, 1, 3, 3, 0, 0, 0, 0, 0, 0]⟩ =
        PadicInteger.addU ⟨5, 10, [3, 4, 4, 0, 0, 0, 0, 0, 0, 0]⟩
          ⟨5, 10, [1, 1, 3, 3, 0, 0, 0, 0, 0, 0]⟩ ∧
      PadicInteger.sub ⟨5, 10, [3, 4, 4, 0, 0, 0, 0, 0, 0, 0]⟩
          ⟨5, 10, [1, 1, 3, 3, 0, 0, 0, 0, 0, 0]⟩ =
        PadicInteger.subU ⟨5, 10, [3, 4, 4, 0, 0, 0, 0, 0, 0, 0]⟩
          ⟨5, 10, [1, 1, 3, 3, 0, 0, 0, 0, 0, 0]⟩) ∧
    (5 * 5 ≤ dtypeBound 5 →
      PadicInteger.mul ⟨5, 10, [3, 4, 4, 0, 0, 0, 0, 0, 0, 0]⟩
          ⟨5, 10, [1, 1, 3, 3, 0, 0, 0, 0, 0, 0]⟩ =
        PadicInteger.mulU ⟨5, 10, [3, 4, 4, 0, 0, 0, 0, 0, 0, 0]⟩
          ⟨5, 10, [1, 1, 3, 3, 0, 0, 0, 0, 0, 0]⟩) :=
  width_refinement_bounded ⟨5, 10, [3, 4, 4, 0, 0, 0, 0, 0, 0, 0]⟩
    ⟨5, 10, [1, 1, 3, 3, 0, 0, 0, 0, 0, 0]⟩ (by decide) (by decide) (by decide)

/-- C8 counterexample: at prime 17 the 8-bit storage changes `__mul__`:
`16 × 16` yields digits `[0, 0]` (the `uint8` product `256 mod 256 = 0`)
while unbounded digit storage yields `[1, 15]`, the exact product 256 —
the fixed-width and unbounded embeddings are not equal. -/
theorem width_refinement_counterexample :
    PadicInteger.mul ⟨17, 1, [16]⟩ ⟨17, 1, [16]⟩ = .ok ⟨17, 2, [0, 0]⟩ ∧
    PadicInteger.mulU ⟨17, 1, [16]⟩ ⟨17, 1, [16]⟩ = .ok ⟨17, 2, [1, 15]⟩ ∧
    (⟨17, 2, [0, 0]⟩ : PadicInteger) ≠ ⟨17, 2, [1, 15]⟩ :=
  ⟨rfl, rfl, by decide⟩
